import Mathlib

/-!
Verification development for the arolla serialization container format and
the operator-package mechanism.

The development shallowly embeds:
* `load_operator_package.cc` (`LoadOperatorPackage`) — the package loader;
* `qexpr/operators.cc` (`OperatorRegistry`, `CombinedOperatorFamily`) — the
  QExpr operator registry;
* the container version gate of `ProcessContainerProto` (modelled; its
  implementation file is not part of the sources, only its tests);
* the operator-package dumper (modelled from the spec, §4.5);
* the serialization encoder/decoder (modelled from the spec, §§3, 4.2, 4.3).

Machine integers (proto `uint32`/`uint64` fields, sizes) are modelled as
`Nat`; none of the embedded code paths can overflow them.  `absl::Status`
is modelled by an explicit status-code/message pair.
-/

namespace ArollaSpec

/-- Model of `absl::StatusCode`, restricted to the codes used by the
embedded code. -/
inductive StatusCode where
  | ok
  | invalidArgument
  | failedPrecondition
  | alreadyExists
  | notFound
  | internal
  | unimplemented
deriving DecidableEq, Repr

/-- Model of `absl::Status`: a code together with a message. -/
structure Status where
  code : StatusCode
  message : String
deriving DecidableEq, Repr

/-- The OK status (`absl::OkStatus()`). -/
def okStatus : Status := ⟨StatusCode.ok, ""⟩

/-- Model of the status-annotation operator `_ << ctx` of
`status_macros_backport.h`: appends a positional context to the
message. -/
def Status.annotate (st : Status) (ctx : String) : Status :=
  ⟨st.code, st.message ++ "; " ++ ctx⟩

/-! ### A model of `std::set<std::string>`

`std::set` keeps its elements deduplicated in increasing order, and
`absl::StrJoin` then walks them in that order.  We model the set as a
strictly sorted list and the insertion as sorted insertion. -/

/-- Sorted insertion into a strictly increasing list, skipping elements
already present: the model of `std::set<std::string>::insert`. -/
def setInsert (x : String) : List String → List String
  | [] => [x]
  | y :: ys =>
    if x < y then x :: y :: ys
    else if x = y then y :: ys
    else y :: setInsert x ys

/-- Folding `setInsert` over a list: the collected set. -/
def collectSet (l : List String) : List String :=
  l.foldl (fun acc n => setInsert n acc) []

/-! ### The operator-package loader

Shallow embedding of `LoadOperatorPackage` from
`arolla/codegen/operator_package/load_operator_package.cc`.

The loader's collaborators are kept parametric, mirroring how the C++
function calls into them:

* the expression operator registry is modelled by the list of currently
  registered names (`LookupOperatorOrNull(name) != nullptr` becomes list
  membership), threaded through explicitly since the C++ mutates a global;
* `serialization::Decode` is a parameter `decode` producing a
  `DecodeResult` (its published values and expressions);
* `qvalue.GetType()->name()` is a parameter `getQType`;
  `GetQType<ExprOperatorPtr>()->name()` is the constant `EXPR_OPERATOR`;
* `ExprOperatorRegistry::Register` is a parameter `register_` that may
  fail and otherwise returns the updated registry.
-/

/-- One entry of `operator_package_proto.operators`. -/
structure OperatorProto (C : Type) where
  registration_name : String
  implementation : C

/-- The `OperatorPackageProto` message. -/
structure OperatorPackageProto (C : Type) where
  version : Nat
  required_registered_operators : List String
  operators : List (OperatorProto C)

/-- The result of `serialization::Decode`: published values and
expressions. -/
structure DecodeResult (V E : Type) where
  values : List V
  exprs : List E

/-- Name of the QType `GetQType<ExprOperatorPtr>()`. -/
def exprOperatorQTypeName : String := "EXPR_OPERATOR"

/-- The missing-dependency collection loop of `LoadOperatorPackage`:
every name of `required` absent from the registry goes into a
`std::set`. -/
def collectMissing (reg : List String) (required : List String) : List String :=
  required.foldl (fun acc name => if reg.contains name then acc else setInsert name acc) []

/-- The already-registered collection loop of `LoadOperatorPackage`:
every `registration_name` already present in the registry goes into a
`std::set`. -/
def collectAlready {C : Type} (reg : List String) (ops : List (OperatorProto C)) :
    List String :=
  ops.foldl
    (fun acc op =>
      if reg.contains op.registration_name then setInsert op.registration_name acc
      else acc)
    []

/-- The body of the per-operator loading loop of `LoadOperatorPackage`
(decode the implementation, check the published counts, check the value's
type, register).  Returns the updated registry on success. -/
def processOperator {C V E : Type}
    (decode : C → Except Status (DecodeResult V E))
    (getQType : V → String)
    (register_ : List String → String → V → Except Status (List String))
    (reg : List String) (i : Nat) (op : OperatorProto C) :
    Except Status (List String) :=
  match decode op.implementation with
  | Except.error st =>
    Except.error (st.annotate
      ("operators[" ++ toString i ++ "].registration_name=" ++ op.registration_name))
  | Except.ok dr =>
    match dr.values, dr.exprs with
    | [qvalue], [] =>
      if getQType qvalue ≠ exprOperatorQTypeName then
        Except.error ⟨StatusCode.invalidArgument,
          "expected to get " ++ exprOperatorQTypeName ++ ", got " ++ getQType qvalue
            ++ "; operators[" ++ toString i ++ "].registration_name="
            ++ op.registration_name⟩
      else
        register_ reg op.registration_name qvalue
    | vs, es =>
      Except.error ⟨StatusCode.invalidArgument,
        "expected to get a value, got " ++ toString vs.length ++ " values and "
          ++ toString es.length ++ " exprs; operators[" ++ toString i
          ++ "].registration_name=" ++ op.registration_name⟩

/-- The per-operator loading loop of `LoadOperatorPackage` (`for (int i = 0; ...)`).
Returns the final status together with the registry state the loop leaves
behind — the C++ registry is a global that survives a failed load. -/
def loadOperators {C V E : Type}
    (decode : C → Except Status (DecodeResult V E))
    (getQType : V → String)
    (register_ : List String → String → V → Except Status (List String)) :
    List String → Nat → List (OperatorProto C) → Status × List String
  | reg, _, [] => (okStatus, reg)
  | reg, i, op :: rest =>
    match processOperator decode getQType register_ reg i op with
    | Except.error st => (st, reg)
    | Except.ok reg2 => loadOperators decode getQType register_ reg2 (i + 1) rest

/-- Shallow embedding of `LoadOperatorPackage`.  Returns the final status
together with the resulting registry state. -/
def loadOperatorPackage {C V E : Type}
    (decode : C → Except Status (DecodeResult V E))
    (getQType : V → String)
    (register_ : List String → String → V → Except Status (List String))
    (reg : List String) (pkg : OperatorPackageProto C) : Status × List String :=
  if pkg.version ≠ 1 then
    (⟨StatusCode.invalidArgument,
      "expected operator_package_proto.version=1, got " ++ toString pkg.version⟩, reg)
  else
    let missing := collectMissing reg pkg.required_registered_operators
    if missing ≠ [] then
      (⟨StatusCode.failedPrecondition,
        "missing dependencies: M." ++ String.intercalate (", M.") missing⟩, reg)
    else
      let already := collectAlready reg pkg.operators
      if already ≠ [] then
        (⟨StatusCode.failedPrecondition,
          "already present in the registry: M." ++ String.intercalate (", M.") already⟩,
         reg)
      else
        loadOperators decode getQType register_ reg 0 pkg.operators

/-! ### The QExpr operator registry

Shallow embedding of `OperatorRegistry` and `CombinedOperatorFamily` from
`arolla/qexpr/operators.cc`. -/

/-- Pointer identity of a `QTypePtr` (QTypes are singletons compared by
address). -/
abbrev QTypeId := Nat

/-- The `QExprOperatorSignature` of an operator: input types and output
type. -/
structure QExprSignature where
  inputTypes : List QTypeId
  outputType : QTypeId
deriving DecidableEq, Repr

/-- A `QExprOperator` as far as registration is concerned: its name, its
signature (`GetQType()`), and the identity of the underlying object. -/
structure QExprOp where
  name : String
  sig : QExprSignature
  objId : Nat
deriving DecidableEq, Repr

/-- Generic model of a hash-map lookup over an association list. -/
def assocFind {α β : Type} [DecidableEq α] : List (α × β) → α → Option β
  | [], _ => none
  | (k, v) :: rest, a => if k = a then some v else assocFind rest a

/-- An entry of `OperatorRegistry::families_`: either a
`CombinedOperatorFamily` (its `operators_` map, keyed by input types) or
some other `OperatorFamily` subclass, for which the `dynamic_cast` in
`RegisterOperator` fails. -/
inductive FamilyEntry where
  | combined (ops : List (List QTypeId × QExprOp))
  | custom (objId : Nat)
deriving DecidableEq, Repr

/-- The registry state `OperatorRegistry::families_`. -/
abbrev QExprRegistry := List (String × FamilyEntry)

/-- Replacing the family stored under a name: the in-place mutation of a
found `families_` entry. -/
def regReplace : QExprRegistry → String → FamilyEntry → QExprRegistry
  | [], _, _ => []
  | (k, f) :: rest, name, f2 =>
    if k = name then (k, f2) :: rest else (k, f) :: regReplace rest name f2

/-- `CombinedOperatorFamily::Insert`: an `emplace` keyed by the operator's
input types.  If the key is already present the map is left unchanged and
`OkStatus` is returned (the `kAlreadyExists` branch is commented out in
the source). -/
def combinedInsert (ops : List (List QTypeId × QExprOp)) (op : QExprOp) :
    List (List QTypeId × QExprOp) :=
  match assocFind ops op.sig.inputTypes with
  | some _ => ops
  | none => ops ++ [(op.sig.inputTypes, op)]

/-- `OperatorRegistry::RegisterOperatorFamily`.  `IsOperatorName` lives in
`util/operator_name.h`, outside the sources, so it is a parameter. -/
def registerOperatorFamily (isOperatorName : String → Bool)
    (reg : QExprRegistry) (name : String) (familyObjId : Nat) :
    Status × QExprRegistry :=
  if ¬ isOperatorName name then
    (⟨StatusCode.invalidArgument, "incorrect operator name \"" ++ name ++ "\""⟩, reg)
  else
    match assocFind reg name with
    | some _ =>
      (⟨StatusCode.alreadyExists,
        "trying to register non-static QExpr operator family " ++ name ++ " twice"⟩, reg)
    | none => (okStatus, reg ++ [(name, FamilyEntry.custom familyObjId)])

/-- `OperatorRegistry::RegisterOperator`: validate the name, find or
create the `CombinedOperatorFamily` under the name, and insert; a
non-combined family under the name fails with `kAlreadyExists`. -/
def registerOperator (isOperatorName : String → Bool)
    (reg : QExprRegistry) (op : QExprOp) : Status × QExprRegistry :=
  if ¬ isOperatorName op.name then
    (⟨StatusCode.invalidArgument, "incorrect operator name \"" ++ op.name ++ "\""⟩, reg)
  else
    match assocFind reg op.name with
    | none =>
      (okStatus, reg ++ [(op.name, FamilyEntry.combined (combinedInsert [] op))])
    | some (FamilyEntry.combined ops) =>
      (okStatus, regReplace reg op.name (FamilyEntry.combined (combinedInsert ops op)))
    | some (FamilyEntry.custom _) =>
      (⟨StatusCode.alreadyExists,
        "trying to register a single QExpr operator and an operator family under the same name "
          ++ op.name⟩, reg)

/-! ### The container version gate -/

/-- Modelled from the spec: the version gate of `ProcessContainerProto`.
`serialization_base/container_proto.cc` is not among the sources; the
behaviour is pinned by `container_proto_test.cc`
(`MissingContainerVersion`, `WrongContainerVersion`).  The proto version
field carries presence information: `none` models an absent
`container.version` (which reads as the proto default 0), `some v` a
present value. -/
def checkContainerVersion (version : Option Nat) : Status :=
  match version with
  | none => ⟨StatusCode.invalidArgument, "missing container.version"⟩
  | some v =>
    if v ≠ 1 then
      ⟨StatusCode.invalidArgument,
        "expected container.version to be 1, got " ++ toString v⟩
    else okStatus

/-- A message `s` mentions `frag` when `frag` occurs in it as a
substring. -/
def mentions (s frag : String) : Prop := frag.data <:+: s.data

instance (s frag : String) : Decidable (mentions s frag) :=
  inferInstanceAs (Decidable (frag.data <:+: s.data))

/-! ### The operator-package dumper

`DumpOperatorPackageProto` is not among the sources (only its tests are),
so this component is modelled from the spec, §4.5. -/

/-- Modelled from the spec: an operator implementation as the dumper sees
it, an expression tree whose `operation` nodes reference registered
operators by name.  The names of `operation` nodes are what "the set of
operator names referenced (transitively, as operands of Operation nodes)"
collects. -/
inductive PkgExpr where
  | literal (payload : Nat)
  | leaf (key : String)
  | placeholder (key : String)
  | operation (opName : String) (args : List PkgExpr)

mutual
/-- Modelled from the spec: the operator names transitively referenced by
an implementation, via `operation` nodes. -/
def pkgExprRefs : PkgExpr → List String
  | PkgExpr.literal _ => []
  | PkgExpr.leaf _ => []
  | PkgExpr.placeholder _ => []
  | PkgExpr.operation opName args => opName :: pkgExprListRefs args

/-- The references of a list of operand subexpressions, in order. -/
def pkgExprListRefs : List PkgExpr → List String
  | [] => []
  | e :: es => pkgExprRefs e ++ pkgExprListRefs es
end

/-- Modelled from the spec (dump step 1): the first name that repeats an
earlier one in the export list. -/
def findDuplicate (seen : List String) : List String → Option String
  | [] => none
  | n :: rest => if seen.contains n then some n else findDuplicate (seen ++ [n]) rest

/-- Modelled from the spec (dump step 2): look every exported name up in
the operator registry; an unknown name is `NotFound`. -/
def lookupImpls (registry : List (String × PkgExpr)) :
    List String → Except Status (List (String × PkgExpr))
  | [] => Except.ok []
  | n :: rest =>
    match assocFind registry n with
    | none => Except.error ⟨StatusCode.notFound, "operator " ++ n ++ " not found"⟩
    | some impl =>
      match lookupImpls registry rest with
      | Except.error st => Except.error st
      | Except.ok tail => Except.ok ((n, impl) :: tail)

/-- Modelled from the spec (dump step 4): every exported operator that an
implementation references, other than the operator itself, must appear
earlier in the export list. -/
def topoOk (allNames : List String) : List String → List (String × PkgExpr) → Bool
  | _, [] => true
  | earlier, (n, impl) :: rest =>
    (pkgExprRefs impl).all
      (fun r => !(allNames.contains r) || (earlier ++ [n]).contains r) &&
    topoOk allNames (earlier ++ [n]) rest

/-- Modelled from the spec (dump step 3): the sorted set of operator
names referenced by any exported implementation that are not themselves
in the export list. -/
def requiredRegisteredOperators (names : List String)
    (impls : List (String × PkgExpr)) : List String :=
  collectSet
    ((impls.map (fun p => pkgExprRefs p.2)).flatten.filter (fun r => !(names.contains r)))

/-- Modelled from the spec (§4.5): `DumpOperatorPackageProto`.  The
checks run in the spec's order: duplicates, registry lookups, the
topological-order check, then emission.  Each dumped operator stores its
implementation directly (the further container-encoding of the
implementation is irrelevant to the dumped name list and the required
set). -/
def dumpOperatorPackage (registry : List (String × PkgExpr)) (names : List String) :
    Except Status (OperatorPackageProto PkgExpr) :=
  match findDuplicate [] names with
  | some n =>
    Except.error ⟨StatusCode.invalidArgument,
      "operator " ++ n ++ " is listed multiple times"⟩
  | none =>
    match lookupImpls registry names with
    | Except.error st => Except.error st
    | Except.ok impls =>
      if topoOk names [] impls then
        Except.ok ⟨1, requiredRegisteredOperators names impls,
          impls.map (fun p => ⟨p.1, p.2⟩)⟩
      else
        Except.error ⟨StatusCode.invalidArgument,
          "expected the operator names to be given in topological order"⟩

/-! ### The serialization container, decoder and encoder

`serialization/encode.cc` and `serialization/decode.cc` are not among
the sources (only `serialization_test.cc` is), so this component is
modelled from the spec, §§3, 4.2 and 4.3.

The model is parametric in the value type `V` (with decidable equality
standing for fingerprint equality: the spec, §3, takes the content
fingerprint as *the* equality of values) and in the codec payload type
`P`.  Codecs are parameters: a value encoder picks a codec name and a
payload for a value, and the codec registry resolves a codec name to a
decode callback.

Following the wire schema (spec §6) as normalised by
`ContainerProtoBuilder`, codec declarations and output markers live in
the dedicated `codecs`/`output_*_indices` container fields, processed
before and after `decoding_steps` in that order.  The spec's step union
(§3) omits the steps that create `Literal` and `Operation` expression
nodes, but its encoder (§4.3) requires them ("then emits a node
referencing those indices"), so the model carries `literalNode` and
`operationNode` steps referencing a value index and operand expression
indices. -/

/-- An expression node (spec §3): literal, leaf, placeholder, or operator
application.  Operator values are themselves values. -/
inductive ExprNode (V : Type) where
  | literal (value : V)
  | leaf (key : String)
  | placeholder (key : String)
  | operation (op : V) (args : List (ExprNode V))

mutual
/-- Structural equality of expression nodes (the recursive fingerprint of
spec §4.3). -/
def exprBeq {V : Type} [DecidableEq V] : ExprNode V → ExprNode V → Bool
  | ExprNode.literal v1, ExprNode.literal v2 => decide (v1 = v2)
  | ExprNode.leaf k1, ExprNode.leaf k2 => decide (k1 = k2)
  | ExprNode.placeholder k1, ExprNode.placeholder k2 => decide (k1 = k2)
  | ExprNode.operation o1 a1, ExprNode.operation o2 a2 =>
    decide (o1 = o2) && exprListBeq a1 a2
  | _, _ => false

/-- Structural equality of operand lists. -/
def exprListBeq {V : Type} [DecidableEq V] :
    List (ExprNode V) → List (ExprNode V) → Bool
  | [], [] => true
  | e1 :: r1, e2 :: r2 => exprBeq e1 e2 && exprListBeq r1 r2
  | _, _ => false
end

mutual
/-- The values embedded in an expression: literal payloads and the
operator values of `operation` nodes. -/
def exprValues {V : Type} : ExprNode V → List V
  | ExprNode.literal v => [v]
  | ExprNode.leaf _ => []
  | ExprNode.placeholder _ => []
  | ExprNode.operation op args => op :: exprListValues args

/-- The values embedded in a list of expressions. -/
def exprListValues {V : Type} : List (ExprNode V) → List V
  | [] => []
  | e :: es => exprValues e ++ exprListValues es
end

/-- One decoding step (spec §3), with the codec-declaration and
output-marker variants normalised into the dedicated container fields. -/
inductive DecodingStep (P : Type) where
  | leafNode (key : String)
  | placeholderNode (key : String)
  | literalNode (valueIndex : Nat)
  | operationNode (opValueIndex : Nat) (argExprIndices : List Nat)
  | valueNode (codecIndex : Nat) (payload : P)
      (inputValueIndices : List Nat) (inputExprIndices : List Nat)

/-- The container (spec §3): a version, the codec table, the decoding
steps, and the two published-output index lists. -/
structure Container (P : Type) where
  version : Nat
  codecs : List String
  decodingSteps : List (DecodingStep P)
  outputValueIndices : List Nat
  outputExprIndices : List Nat

/-- A codec's decode callback: payload plus the previously decoded
values/expressions named by the step's input index lists. -/
abbrev ValueDecoder (V P : Type) := P → List V → List (ExprNode V) → Except String V

/-- The codec registry side used by decoding: codec name → decode
callback. -/
abbrev CodecRegistry (V P : Type) := String → Option (ValueDecoder V P)

/-- The codec registry side used by encoding: value → codec name and
payload (`none` models `Unimplemented`: no codec accepts the value). -/
abbrev ValueEncoder (V P : Type) := V → Option (String × P)

/-- The decoder's two append-only sequences (spec §4.2). -/
structure DecState (V : Type) where
  values : List V
  exprs : List (ExprNode V)

/-- Bounds-checked sequence access: out-of-range indices fail rather
than read garbage. -/
def getOrErr {α : Type} (l : List α) (i : Nat) (what : String) : Except Status α :=
  match l[i]? with
  | some a => Except.ok a
  | none =>
    Except.error ⟨StatusCode.invalidArgument,
      what ++ " index " ++ toString i ++ " is out of range"⟩

/-- One decoder transition (spec §4.2): `leafNode`/`placeholderNode`
append the corresponding node directly; `literalNode`/`operationNode`
resolve their referenced indices; `valueNode` resolves its codec and
input indices and invokes the codec.  Every index is validated against
the correct sequence. -/
def decodeStep {V P : Type} (reg : CodecRegistry V P) (codecs : List String)
    (s : DecState V) : DecodingStep P → Except Status (DecState V)
  | DecodingStep.leafNode key =>
    Except.ok ⟨s.values, s.exprs ++ [ExprNode.leaf key]⟩
  | DecodingStep.placeholderNode key =>
    Except.ok ⟨s.values, s.exprs ++ [ExprNode.placeholder key]⟩
  | DecodingStep.literalNode vi => do
    let v ← getOrErr s.values vi ("value")
    Except.ok ⟨s.values, s.exprs ++ [ExprNode.literal v]⟩
  | DecodingStep.operationNode ovi argIdxs => do
    let op ← getOrErr s.values ovi ("value")
    let args ← argIdxs.mapM (fun i => getOrErr s.exprs i ("expression"))
    Except.ok ⟨s.values, s.exprs ++ [ExprNode.operation op args]⟩
  | DecodingStep.valueNode ci payload ivs ies => do
    let name ← getOrErr codecs ci ("codec")
    match reg name with
    | none => Except.error ⟨StatusCode.notFound, "unknown codec: " ++ name⟩
    | some d => do
      let inputValues ← ivs.mapM (fun i => getOrErr s.values i ("value"))
      let inputExprs ← ies.mapM (fun i => getOrErr s.exprs i ("expression"))
      match d payload inputValues inputExprs with
      | Except.error msg => Except.error ⟨StatusCode.invalidArgument, msg⟩
      | Except.ok v => Except.ok ⟨s.values ++ [v], s.exprs⟩

/-- The decoder's strictly ordered single pass over the decoding steps
(spec §4.2); a failing step is wrapped with its position. -/
def runDecodingSteps {V P : Type} (reg : CodecRegistry V P) (codecs : List String) :
    DecState V → Nat → List (DecodingStep P) → Except Status (DecState V)
  | s, _, [] => Except.ok s
  | s, i, step :: rest =>
    match decodeStep reg codecs s step with
    | Except.error st =>
      Except.error (st.annotate ("while handling decoding_steps[" ++ toString i ++ "]"))
    | Except.ok s2 => runDecodingSteps reg codecs s2 (i + 1) rest

/-- The decoder (spec §4.2): version gate, fail-fast codec resolution,
the sequential pass, and the published outputs — one result per
published index, in order, duplicates allowed. -/
def decodeContainer {V P : Type} (reg : CodecRegistry V P) (c : Container P) :
    Except Status (DecodeResult V (ExprNode V)) :=
  if c.version ≠ 1 then
    Except.error ⟨StatusCode.invalidArgument,
      "expected container.version to be 1, got " ++ toString c.version⟩
  else
    match c.codecs.find? (fun name => (reg name).isNone) with
    | some name => Except.error ⟨StatusCode.notFound, "unknown codec: " ++ name⟩
    | none =>
      match runDecodingSteps reg c.codecs ⟨[], []⟩ 0 c.decodingSteps with
      | Except.error st => Except.error st
      | Except.ok s =>
        match c.outputValueIndices.mapM (fun i => getOrErr s.values i ("value")) with
        | Except.error st => Except.error st
        | Except.ok outVals =>
          match c.outputExprIndices.mapM (fun i => getOrErr s.exprs i ("expression")) with
          | Except.error st => Except.error st
          | Except.ok outExprs => Except.ok ⟨outVals, outExprs⟩

/-- The encoder state (spec §4.3): the codec table and steps emitted so
far, the two fingerprint memo tables mapping already-emitted items to
their sequence indices, and the sizes of the two sequences. -/
structure EncState (V P : Type) where
  codecs : List String
  steps : List (DecodingStep P)
  valueMemo : List (V × Nat)
  exprMemo : List (ExprNode V × Nat)
  numValues : Nat
  numExprs : Nat

/-- The fresh encoder state. -/
def emptyEncState {V P : Type} : EncState V P := ⟨[], [], [], [], 0, 0⟩

/-- Memo lookup keyed by structural equality of expression nodes. -/
def exprMemoFind {V : Type} [DecidableEq V] (memo : List (ExprNode V × Nat))
    (e : ExprNode V) : Option Nat :=
  match memo with
  | [] => none
  | (e2, i) :: rest => if exprBeq e2 e then some i else exprMemoFind rest e

/-- The position of a codec name in the codec table. -/
def codecIndex (codecs : List String) (name : String) : Option Nat :=
  match codecs with
  | [] => none
  | c :: rest => if c = name then some 0 else (codecIndex rest name).map (· + 1)

/-- Lazy codec declaration (spec §4.3): a codec is declared the first
time it is needed; later values reuse the same table index. -/
def declareCodec (codecs : List String) (name : String) : Nat × List String :=
  match codecIndex codecs name with
  | some i => (i, codecs)
  | none => (codecs.length, codecs ++ [name])

/-- Encoding one value (spec §4.3): a memo hit reuses the existing
sequence index; otherwise the value's codec picks a name and payload and
one `valueNode` step is emitted. -/
def encodeValue {V P : Type} [DecidableEq V] (encV : ValueEncoder V P)
    (v : V) (s : EncState V P) : Except Status (Nat × EncState V P) :=
  match assocFind s.valueMemo v with
  | some i => Except.ok (i, s)
  | none =>
    match encV v with
    | none =>
      Except.error ⟨StatusCode.unimplemented, "no codec supports the value"⟩
    | some (name, payload) =>
      let p := declareCodec s.codecs name
      Except.ok (s.numValues,
        ⟨p.2, s.steps ++ [DecodingStep.valueNode p.1 payload [] []],
         s.valueMemo ++ [(v, s.numValues)], s.exprMemo,
         s.numValues + 1, s.numExprs⟩)

mutual
/-- Encoding one expression node (spec §4.3): depth-first, post-order,
memoised by structural identity; `literal` delegates to value encoding,
`operation` first encodes its operator value and operand expressions and
then emits a node referencing those indices. -/
def encodeExpr {V P : Type} [DecidableEq V] (encV : ValueEncoder V P)
    (e : ExprNode V) (s : EncState V P) : Except Status (Nat × EncState V P) :=
  match exprMemoFind s.exprMemo e with
  | some i => Except.ok (i, s)
  | none =>
    match e with
    | ExprNode.literal v =>
      match encodeValue encV v s with
      | Except.error st => Except.error st
      | Except.ok (vi, s1) =>
        Except.ok (s1.numExprs,
          ⟨s1.codecs, s1.steps ++ [DecodingStep.literalNode vi], s1.valueMemo,
           s1.exprMemo ++ [(ExprNode.literal v, s1.numExprs)],
           s1.numValues, s1.numExprs + 1⟩)
    | ExprNode.leaf key =>
      Except.ok (s.numExprs,
        ⟨s.codecs, s.steps ++ [DecodingStep.leafNode key], s.valueMemo,
         s.exprMemo ++ [(ExprNode.leaf key, s.numExprs)],
         s.numValues, s.numExprs + 1⟩)
    | ExprNode.placeholder key =>
      Except.ok (s.numExprs,
        ⟨s.codecs, s.steps ++ [DecodingStep.placeholderNode key], s.valueMemo,
         s.exprMemo ++ [(ExprNode.placeholder key, s.numExprs)],
         s.numValues, s.numExprs + 1⟩)
    | ExprNode.operation op args =>
      match encodeValue encV op s with
      | Except.error st => Except.error st
      | Except.ok (ovi, s1) =>
        match encodeExprList encV args s1 with
        | Except.error st => Except.error st
        | Except.ok (argIdxs, s2) =>
          Except.ok (s2.numExprs,
            ⟨s2.codecs, s2.steps ++ [DecodingStep.operationNode ovi argIdxs],
             s2.valueMemo,
             s2.exprMemo ++ [(ExprNode.operation op args, s2.numExprs)],
             s2.numValues, s2.numExprs + 1⟩)

/-- Encoding a list of operand expressions, left to right. -/
def encodeExprList {V P : Type} [DecidableEq V] (encV : ValueEncoder V P)
    (es : List (ExprNode V)) (s : EncState V P) :
    Except Status (List Nat × EncState V P) :=
  match es with
  | [] => Except.ok ([], s)
  | e :: rest =>
    match encodeExpr encV e s with
    | Except.error st => Except.error st
    | Except.ok (i, s1) =>
      match encodeExprList encV rest s1 with
      | Except.error st => Except.error st
      | Except.ok (idxs, s2) => Except.ok (i :: idxs, s2)
end

/-- Encoding a list of root values, left to right. -/
def encodeValues {V P : Type} [DecidableEq V] (encV : ValueEncoder V P) :
    List V → EncState V P → Except Status (List Nat × EncState V P)
  | [], s => Except.ok ([], s)
  | v :: rest, s =>
    match encodeValue encV v s with
    | Except.error st => Except.error st
    | Except.ok (i, s1) =>
      match encodeValues encV rest s1 with
      | Except.error st => Except.error st
      | Except.ok (idxs, s2) => Except.ok (i :: idxs, s2)

/-- The encoder (spec §4.3): encode the root values then the root
expressions, and publish one output marker per root in the caller's
order. -/
def encode {V P : Type} [DecidableEq V] (encV : ValueEncoder V P)
    (rootValues : List V) (rootExprs : List (ExprNode V)) :
    Except Status (Container P) :=
  match encodeValues encV rootValues emptyEncState with
  | Except.error st => Except.error st
  | Except.ok (vIdxs, s1) =>
    match encodeExprList encV rootExprs s1 with
    | Except.error st => Except.error st
    | Except.ok (eIdxs, s2) =>
      Except.ok ⟨1, s2.codecs, s2.steps, vIdxs, eIdxs⟩

/-- The codec contract the round trip rests on (spec §§4.1–4.3): the
encoder's codec choice for `v` names a registered codec whose decode
callback inverts the encoding. -/
def CodecCompat {V P : Type} (encV : ValueEncoder V P) (reg : CodecRegistry V P)
    (v : V) : Prop :=
  ∃ name payload d, encV v = some (name, payload) ∧ reg name = some d ∧
    d payload [] [] = Except.ok v

/-- The invariant tying an encoder state to the decoder state that
replaying its emitted container prefix produces: the codec table resolves
completely, the replay succeeds, the sequences have the recorded lengths,
and every memo entry names the sequence slot holding its item. -/
structure EncInv {V P : Type} (reg : CodecRegistry V P) (s : EncState V P)
    (ds : DecState V) : Prop where
  run_ok : runDecodingSteps reg s.codecs ⟨[], []⟩ 0 s.steps = Except.ok ds
  codecs_reg : ∀ name ∈ s.codecs, (reg name).isSome
  values_len : ds.values.length = s.numValues
  exprs_len : ds.exprs.length = s.numExprs
  value_memo : ∀ v i, (v, i) ∈ s.valueMemo → ds.values[i]? = some v
  expr_memo : ∀ e i, (e, i) ∈ s.exprMemo → ds.exprs[i]? = some e

/-- The dump test scenario of `DumpOperatorPackageProtoTest.Basics`: the
implementation of `op1` references no other operator. -/
def demoImpl1 : PkgExpr := PkgExpr.placeholder ("x")

/-- The implementation of `op2`: a lambda body that calls `op1`. -/
def demoImpl2 : PkgExpr := PkgExpr.operation ("op1") [PkgExpr.placeholder ("x")]

/-- A registry holding `op1` and `op2`. -/
def demoRegistry : List (String × PkgExpr) := [("op1", demoImpl1), ("op2", demoImpl2)]

/-! ## Theorems -/

theorem mem_setInsert (x z : String) (l : List String) :
    z ∈ setInsert x l ↔ z = x ∨ z ∈ l := by
  induction l with
  | nil => simp [setInsert]
  | cons y ys ih =>
    simp only [setInsert]
    split
    · simp
    · split
      · next h2 => subst h2; simp only [List.mem_cons]; tauto
      · simp only [List.mem_cons, ih]; tauto

theorem sorted_setInsert (x : String) (l : List String)
    (h : List.Sorted (· < ·) l) :
    List.Sorted (· < ·) (setInsert x l) := by
  induction l with
  | nil => simp [setInsert]
  | cons y ys ih =>
    rw [List.sorted_cons] at h
    obtain ⟨hy, hys⟩ := h
    simp only [setInsert]
    split
    · next h1 =>
      rw [List.sorted_cons]
      refine ⟨?_, ?_⟩
      · intro b hb
        rcases List.mem_cons.mp hb with rfl | hb
        · exact h1
        · exact lt_trans h1 (hy b hb)
      · rw [List.sorted_cons]; exact ⟨hy, hys⟩
    · next h1 =>
      split
      · rw [List.sorted_cons]; exact ⟨hy, hys⟩
      · next h2 =>
        rw [List.sorted_cons]
        refine ⟨?_, ih hys⟩
        intro b hb
        rcases (mem_setInsert x b ys).mp hb with rfl | hb
        · rcases lt_trichotomy b y with h | h | h
          · exact absurd h h1
          · exact absurd h h2
          · exact h
        · exact hy b hb

theorem collectSet_go_mem (l : List String) :
    ∀ acc z, z ∈ l.foldl (fun acc n => setInsert n acc) acc ↔
      z ∈ acc ∨ z ∈ l := by
  induction l with
  | nil => intro acc z; simp
  | cons x xs ih =>
    intro acc z
    simp only [List.foldl_cons, ih, mem_setInsert, List.mem_cons]
    tauto

theorem collectSet_go_sorted (l : List String) :
    ∀ acc, List.Sorted (· < ·) acc →
      List.Sorted (· < ·) (l.foldl (fun acc n => setInsert n acc) acc) := by
  induction l with
  | nil => intro acc h; simpa using h
  | cons x xs ih =>
    intro acc h
    exact ih _ (sorted_setInsert x acc h)

theorem mem_collectSet (l : List String) (z : String) :
    z ∈ collectSet l ↔ z ∈ l := by
  unfold collectSet
  rw [collectSet_go_mem]
  simp

theorem sorted_collectSet (l : List String) :
    List.Sorted (· < ·) (collectSet l) :=
  collectSet_go_sorted l [] (by simp)

theorem collectMissing_go_mem (reg : List String) (required : List String) :
    ∀ acc z,
      z ∈ required.foldl
            (fun acc name => if reg.contains name then acc else setInsert name acc) acc ↔
        z ∈ acc ∨ (z ∈ required ∧ ¬ reg.contains z) := by
  induction required with
  | nil => intro acc z; simp
  | cons x xs ih =>
    intro acc z
    simp only [List.foldl_cons]
    by_cases hx : reg.contains x
    · rw [if_pos hx, ih]
      simp only [List.mem_cons]
      constructor
      · rintro (h | ⟨h1, h2⟩)
        · exact Or.inl h
        · exact Or.inr ⟨Or.inr h1, h2⟩
      · rintro (h | ⟨rfl | h1, h2⟩)
        · exact Or.inl h
        · exact absurd hx h2
        · exact Or.inr ⟨h1, h2⟩
    · rw [if_neg hx, ih]
      simp only [mem_setInsert, List.mem_cons]
      constructor
      · rintro ((rfl | h) | ⟨h1, h2⟩)
        · exact Or.inr ⟨Or.inl rfl, hx⟩
        · exact Or.inl h
        · exact Or.inr ⟨Or.inr h1, h2⟩
      · rintro (h | ⟨rfl | h1, h2⟩)
        · exact Or.inl (Or.inr h)
        · exact Or.inl (Or.inl rfl)
        · exact Or.inr ⟨h1, h2⟩

theorem mem_collectMissing (reg : List String) (required : List String) (z : String) :
    z ∈ collectMissing reg required ↔ z ∈ required ∧ ¬ reg.contains z := by
  unfold collectMissing
  rw [collectMissing_go_mem]
  simp

theorem sorted_collectMissing (reg : List String) (required : List String) :
    List.Sorted (· < ·) (collectMissing reg required) := by
  unfold collectMissing
  generalize hacc : ([] : List String) = acc
  have hs : List.Sorted (· < ·) acc := by rw [← hacc]; simp
  clear hacc
  induction required generalizing acc with
  | nil => simpa using hs
  | cons x xs ih =>
    simp only [List.foldl_cons]
    by_cases hx : reg.contains x
    · rw [if_pos hx]; exact ih acc hs
    · rw [if_neg hx]; exact ih _ (sorted_setInsert x acc hs)

theorem collectAlready_go_mem {C : Type} (reg : List String)
    (ops : List (OperatorProto C)) :
    ∀ acc z,
      z ∈ ops.foldl
            (fun acc op =>
              if reg.contains op.registration_name then
                setInsert op.registration_name acc
              else acc) acc ↔
        z ∈ acc ∨ ((∃ op ∈ ops, op.registration_name = z) ∧ reg.contains z) := by
  induction ops with
  | nil => intro acc z; simp
  | cons x xs ih =>
    intro acc z
    simp only [List.foldl_cons]
    by_cases hx : reg.contains x.registration_name
    · rw [if_pos hx, ih]
      simp only [mem_setInsert, List.mem_cons]
      constructor
      · rintro ((rfl | h) | ⟨⟨op, hop, rfl⟩, h2⟩)
        · exact Or.inr ⟨⟨x, Or.inl rfl, rfl⟩, hx⟩
        · exact Or.inl h
        · exact Or.inr ⟨⟨op, Or.inr hop, rfl⟩, h2⟩
      · rintro (h | ⟨⟨op, rfl | hop, rfl⟩, h2⟩)
        · exact Or.inl (Or.inr h)
        · exact Or.inl (Or.inl rfl)
        · exact Or.inr ⟨⟨op, hop, rfl⟩, h2⟩
    · rw [if_neg hx, ih]
      simp only [List.mem_cons]
      constructor
      · rintro (h | ⟨⟨op, hop, rfl⟩, h2⟩)
        · exact Or.inl h
        · exact Or.inr ⟨⟨op, Or.inr hop, rfl⟩, h2⟩
      · rintro (h | ⟨⟨op, rfl | hop, rfl⟩, h2⟩)
        · exact Or.inl h
        · exact absurd h2 hx
        · exact Or.inr ⟨⟨op, hop, rfl⟩, h2⟩

theorem mem_collectAlready {C : Type} (reg : List String)
    (ops : List (OperatorProto C)) (z : String) :
    z ∈ collectAlready reg ops ↔
      (∃ op ∈ ops, op.registration_name = z) ∧ reg.contains z := by
  unfold collectAlready
  rw [collectAlready_go_mem]
  simp

theorem sorted_collectAlready {C : Type} (reg : List String)
    (ops : List (OperatorProto C)) :
    List.Sorted (· < ·) (collectAlready reg ops) := by
  unfold collectAlready
  generalize hacc : ([] : List String) = acc
  have hs : List.Sorted (· < ·) acc := by rw [← hacc]; simp
  clear hacc
  induction ops generalizing acc with
  | nil => simpa using hs
  | cons x xs ih =>
    simp only [List.foldl_cons]
    by_cases hx : reg.contains x.registration_name
    · rw [if_pos hx]; exact ih _ (sorted_setInsert _ acc hs)
    · rw [if_neg hx]; exact ih acc hs

theorem collectMissing_eq_nil {C : Type} (reg : List String)
    (pkg : OperatorPackageProto C)
    (hdeps : ∀ n ∈ pkg.required_registered_operators, reg.contains n) :
    collectMissing reg pkg.required_registered_operators = [] := by
  rw [List.eq_nil_iff_forall_not_mem]
  intro z hz
  rw [mem_collectMissing] at hz
  exact hz.2 (hdeps z hz.1)

theorem collectAlready_eq_nil {C : Type} (reg : List String)
    (pkg : OperatorPackageProto C)
    (hnocol : ∀ op ∈ pkg.operators, ¬ reg.contains op.registration_name) :
    collectAlready reg pkg.operators = [] := by
  rw [List.eq_nil_iff_forall_not_mem]
  intro z hz
  rw [mem_collectAlready] at hz
  obtain ⟨⟨op, hop, rfl⟩, h2⟩ := hz
  exact hnocol op hop h2

theorem loadOperators_nil {C V E : Type}
    (decode : C → Except Status (DecodeResult V E))
    (getQType : V → String)
    (register_ : List String → String → V → Except Status (List String))
    (reg : List String) (i : Nat) :
    loadOperators decode getQType register_ reg i [] = (okStatus, reg) := rfl

theorem loadOperators_cons {C V E : Type}
    (decode : C → Except Status (DecodeResult V E))
    (getQType : V → String)
    (register_ : List String → String → V → Except Status (List String))
    (reg : List String) (i : Nat) (op : OperatorProto C) (rest : List (OperatorProto C)) :
    loadOperators decode getQType register_ reg i (op :: rest)
      = match processOperator decode getQType register_ reg i op with
        | Except.error st => (st, reg)
        | Except.ok reg2 => loadOperators decode getQType register_ reg2 (i + 1) rest := rfl

theorem processOperator_register {C V E : Type}
    (decode : C → Except Status (DecodeResult V E))
    (getQType : V → String)
    (register_ : List String → String → V → Except Status (List String))
    (hmono : ∀ r n v r', register_ r n v = Except.ok r' → n ∈ r' ∧ ∀ m ∈ r, m ∈ r')
    (reg : List String) (i : Nat) (op : OperatorProto C) (reg2 : List String)
    (h : processOperator decode getQType register_ reg i op = Except.ok reg2) :
    op.registration_name ∈ reg2 ∧ ∀ m ∈ reg, m ∈ reg2 := by
  unfold processOperator at h
  split at h
  · simp at h
  · split at h
    · split at h
      · simp at h
      · exact hmono _ _ _ _ h
    · simp at h

theorem processOperator_error_code {C V E : Type}
    (decode : C → Except Status (DecodeResult V E))
    (getQType : V → String)
    (register_ : List String → String → V → Except Status (List String))
    (hd : ∀ c st, decode c = Except.error st → st.code ≠ StatusCode.ok)
    (hr : ∀ r n v st, register_ r n v = Except.error st → st.code ≠ StatusCode.ok)
    (reg : List String) (i : Nat) (op : OperatorProto C) (st : Status)
    (h : processOperator decode getQType register_ reg i op = Except.error st) :
    st.code ≠ StatusCode.ok := by
  unfold processOperator at h
  split at h
  · next st0 hdec =>
    have := hd _ _ hdec
    have hst : st = st0.annotate
        ("operators[" ++ toString i ++ "].registration_name=" ++ op.registration_name) := by
      cases h; rfl
    rw [hst]
    exact this
  · split at h
    · split at h
      · have hst : st.code = StatusCode.invalidArgument := by
          cases h; rfl
        rw [hst]; simp
      · exact hr _ _ _ _ h
    · have hst : st.code = StatusCode.invalidArgument := by
        cases h; rfl
      rw [hst]; simp

theorem loadOperators_mono {C V E : Type}
    (decode : C → Except Status (DecodeResult V E))
    (getQType : V → String)
    (register_ : List String → String → V → Except Status (List String))
    (hmono : ∀ r n v r', register_ r n v = Except.ok r' → n ∈ r' ∧ ∀ m ∈ r, m ∈ r') :
    ∀ (ops : List (OperatorProto C)) (reg : List String) (i : Nat),
      ∀ m ∈ reg, m ∈ (loadOperators decode getQType register_ reg i ops).2 := by
  intro ops
  induction ops with
  | nil => intro reg i m hm; simpa [loadOperators] using hm
  | cons op rest ih =>
    intro reg i m hm
    unfold loadOperators
    cases hp : processOperator decode getQType register_ reg i op with
    | error st => simpa using hm
    | ok reg2 =>
      simp only
      exact ih reg2 (i + 1) m
        ((processOperator_register decode getQType register_ hmono reg i op reg2 hp).2 m hm)

theorem loadOperators_fail {C V E : Type}
    (decode : C → Except Status (DecodeResult V E))
    (getQType : V → String)
    (register_ : List String → String → V → Except Status (List String))
    (hmono : ∀ r n v r', register_ r n v = Except.ok r' → n ∈ r' ∧ ∀ m ∈ r, m ∈ r') :
    ∀ (ops : List (OperatorProto C)) (reg : List String) (i : Nat),
      (loadOperators decode getQType register_ reg i ops).1.code ≠ StatusCode.ok →
      ∃ k, ∃ hk : k < ops.length,
        processOperator decode getQType register_
            (loadOperators decode getQType register_ reg i ops).2 (i + k)
            (ops.get ⟨k, hk⟩)
          = Except.error (loadOperators decode getQType register_ reg i ops).1 ∧
        ∀ j, ∀ hj : j < k,
          (ops.get ⟨j, lt_trans hj hk⟩).registration_name
            ∈ (loadOperators decode getQType register_ reg i ops).2 := by
  intro ops
  induction ops with
  | nil =>
    intro reg i hfail
    exact absurd (rfl : StatusCode.ok = StatusCode.ok)
      (by simp only [loadOperators_nil, okStatus] at hfail; exact hfail)
  | cons op rest ih =>
    intro reg i hfail
    rcases hp : processOperator decode getQType register_ reg i op with st | reg2
    · have hres : loadOperators decode getQType register_ reg i (op :: rest) = (st, reg) := by
        rw [loadOperators_cons, hp]
      refine ⟨0, by simp, ?_, ?_⟩
      · rw [hres]
        simpa using hp
      · intro j hj; omega
    · have hres : loadOperators decode getQType register_ reg i (op :: rest)
          = loadOperators decode getQType register_ reg2 (i + 1) rest := by
        rw [loadOperators_cons, hp]
      rw [hres] at hfail ⊢
      obtain ⟨k, hk, hstep, hprev⟩ := ih reg2 (i + 1) hfail
      refine ⟨k + 1, by simpa using Nat.succ_lt_succ hk, ?_, ?_⟩
      · have harith : i + (k + 1) = i + 1 + k := by omega
        rw [harith]
        simpa using hstep
      · intro j hj
        cases j with
        | zero =>
          have h1 : op.registration_name ∈ reg2 :=
            (processOperator_register decode getQType register_ hmono reg i op reg2 hp).1
          simpa using
            loadOperators_mono decode getQType register_ hmono rest reg2 (i + 1) _ h1
        | succ j =>
          have hj2 : j < k := by omega
          simpa using hprev j hj2

theorem loadOperators_append {C V E : Type}
    (decode : C → Except Status (DecodeResult V E))
    (getQType : V → String)
    (register_ : List String → String → V → Except Status (List String))
    (hd : ∀ c st, decode c = Except.error st → st.code ≠ StatusCode.ok)
    (hr : ∀ r n v st, register_ r n v = Except.error st → st.code ≠ StatusCode.ok) :
    ∀ (l1 l2 : List (OperatorProto C)) (reg reg1 : List String) (i : Nat),
      loadOperators decode getQType register_ reg i l1 = (okStatus, reg1) →
      loadOperators decode getQType register_ reg i (l1 ++ l2)
        = loadOperators decode getQType register_ reg1 (i + l1.length) l2 := by
  intro l1
  induction l1 with
  | nil =>
    intro l2 reg reg1 i h
    have : reg1 = reg := by
      simpa [loadOperators] using congrArg Prod.snd h.symm
    subst this
    simp [loadOperators]
  | cons op rest ih =>
    intro l2 reg reg1 i h
    rcases hp : processOperator decode getQType register_ reg i op with st | reg2
    · exfalso
      have hres : loadOperators decode getQType register_ reg i (op :: rest) = (st, reg) := by
        rw [loadOperators_cons, hp]
      rw [hres] at h
      have hst : st = okStatus := congrArg Prod.fst h
      exact processOperator_error_code decode getQType register_ hd hr reg i op st hp
        (by rw [hst]; rfl)
    · have hres : loadOperators decode getQType register_ reg i (op :: rest)
          = loadOperators decode getQType register_ reg2 (i + 1) rest := by
        rw [loadOperators_cons, hp]
      have hres2 : loadOperators decode getQType register_ reg i ((op :: rest) ++ l2)
          = loadOperators decode getQType register_ reg2 (i + 1) (rest ++ l2) := by
        rw [List.cons_append, loadOperators_cons, hp]
      rw [hres] at h
      rw [hres2, ih l2 reg2 reg1 (i + 1) h]
      have : i + 1 + rest.length = i + (op :: rest).length := by simp; omega
      rw [this]

/-! ### Claim C2 -/

/-- C2: for every operator package with version 1, if any name in
`required_registered_operators` is absent from the operator registry,
`LoadOperatorPackage` fails with `FailedPrecondition` whose message lists
every missing name (not only the first), each prefixed with `M.`, sorted
lexicographically, in a single message. -/
theorem load_missing_dependency_aggregation {C V E : Type}
    (decode : C → Except Status (DecodeResult V E))
    (getQType : V → String)
    (register_ : List String → String → V → Except Status (List String))
    (reg : List String) (pkg : OperatorPackageProto C)
    (hv : pkg.version = 1)
    (hmiss : ∃ n ∈ pkg.required_registered_operators, ¬ reg.contains n) :
    ∃ missing : List String,
      List.Sorted (· < ·) missing ∧
      (∀ n, n ∈ missing ↔ n ∈ pkg.required_registered_operators ∧ ¬ reg.contains n) ∧
      loadOperatorPackage decode getQType register_ reg pkg =
        (⟨StatusCode.failedPrecondition,
          "missing dependencies: M." ++ String.intercalate (", M.") missing⟩, reg) := by
  refine ⟨collectMissing reg pkg.required_registered_operators,
    sorted_collectMissing reg _, fun n => mem_collectMissing reg _ n, ?_⟩
  have hne : collectMissing reg pkg.required_registered_operators ≠ [] := by
    obtain ⟨n, hn, hnc⟩ := hmiss
    exact List.ne_nil_of_mem ((mem_collectMissing reg _ n).mpr ⟨hn, hnc⟩)
  unfold loadOperatorPackage
  rw [if_neg (by rw [hv]; simp), if_pos hne]

/-- Witness for C2, matching `LoadOperatorPackageProtoTest.ErrorMissingDependency`:
two missing names against an empty registry. -/
theorem load_missing_dependency_aggregation_witness :
    ∃ missing : List String,
      List.Sorted (· < ·) missing ∧
      (∀ n, n ∈ missing ↔
        n ∈ ["foo.bar", "far.boo"] ∧ ¬ (List.contains ([] : List String) n)) ∧
      loadOperatorPackage (fun _ : Unit => Except.ok (DecodeResult.mk ([] : List Unit) ([] : List Unit)))
          (fun _ => exprOperatorQTypeName) (fun r n _ => Except.ok (n :: r)) []
          ⟨1, ["foo.bar", "far.boo"], []⟩ =
        (⟨StatusCode.failedPrecondition,
          "missing dependencies: M." ++ String.intercalate (", M.") missing⟩, []) :=
  load_missing_dependency_aggregation _ _ _ [] ⟨1, ["foo.bar", "far.boo"], []⟩ rfl
    ⟨"foo.bar", by simp, by decide⟩

/-! ### Claim C3 -/

/-- C3: for every operator package whose dependency check passes, if any
`registration_name` among the package's operators is already present in
the operator registry, `LoadOperatorPackage` fails with
`FailedPrecondition` listing all such names (prefixed `M.`, sorted), and
this check runs before any implementation is decoded or any operator
registered (the conclusion holds for every `decode`/`register_`
collaborator), so the registry is unchanged on this failure. -/
theorem load_collision_check_before_decoding {C V E : Type}
    (reg : List String) (pkg : OperatorPackageProto C)
    (hv : pkg.version = 1)
    (hdeps : ∀ n ∈ pkg.required_registered_operators, reg.contains n)
    (hcol : ∃ op ∈ pkg.operators, reg.contains op.registration_name) :
    ∃ names : List String,
      List.Sorted (· < ·) names ∧
      (∀ n, n ∈ names ↔
        (∃ op ∈ pkg.operators, op.registration_name = n) ∧ reg.contains n) ∧
      ∀ (decode : C → Except Status (DecodeResult V E)) (getQType : V → String)
        (register_ : List String → String → V → Except Status (List String)),
        loadOperatorPackage decode getQType register_ reg pkg =
          (⟨StatusCode.failedPrecondition,
            "already present in the registry: M." ++ String.intercalate (", M.") names⟩,
           reg) := by
  refine ⟨collectAlready reg pkg.operators,
    sorted_collectAlready reg _, fun n => mem_collectAlready reg _ n, ?_⟩
  intro decode getQType register_
  have hne : collectAlready reg pkg.operators ≠ [] := by
    obtain ⟨op, hop, hc⟩ := hcol
    exact List.ne_nil_of_mem
      ((mem_collectAlready reg _ op.registration_name).mpr ⟨⟨op, hop, rfl⟩, hc⟩)
  unfold loadOperatorPackage
  rw [if_neg (by rw [hv]; simp), if_neg (by simp [collectMissing_eq_nil reg pkg hdeps]),
    if_pos hne]

/-- Witness for C3, matching `LoadOperatorPackageProtoTest.ErrorAlreadyRegistered`:
re-loading a package whose single operator name is already registered. -/
theorem load_collision_check_before_decoding_witness :
    ∃ names : List String,
      List.Sorted (· < ·) names ∧
      (∀ n, n ∈ names ↔
        (∃ op ∈ [(⟨"foo.bar.already_registered", ()⟩ : OperatorProto Unit)],
          OperatorProto.registration_name op = n) ∧
        List.contains ["foo.bar.already_registered"] n) ∧
      ∀ (decode : Unit → Except Status (DecodeResult Unit Unit)) (getQType : Unit → String)
        (register_ : List String → String → Unit → Except Status (List String)),
        loadOperatorPackage decode getQType register_ ["foo.bar.already_registered"]
            ⟨1, [], [⟨"foo.bar.already_registered", ()⟩]⟩ =
          (⟨StatusCode.failedPrecondition,
            "already present in the registry: M." ++ String.intercalate (", M.") names⟩,
           ["foo.bar.already_registered"]) :=
  load_collision_check_before_decoding ["foo.bar.already_registered"]
    ⟨1, [], [⟨"foo.bar.already_registered", ()⟩]⟩ rfl (by simp)
    ⟨⟨"foo.bar.already_registered", ()⟩, by simp, by decide⟩

/-! ### Claim C4 -/

/-- C4: during package loading, operators are decoded and registered one
by one in listed order; if decoding, validation, or registration fails at
index `k`, the registrations performed for indices `0..k-1` remain in the
operator registry — no rollback occurs.  The hypothesis on `register_`
says only that a successful registration adds the name and removes
nothing. -/
theorem load_no_rollback {C V E : Type}
    (decode : C → Except Status (DecodeResult V E))
    (getQType : V → String)
    (register_ : List String → String → V → Except Status (List String))
    (hmono : ∀ r n v r', register_ r n v = Except.ok r' → n ∈ r' ∧ ∀ m ∈ r, m ∈ r')
    (reg : List String) (pkg : OperatorPackageProto C)
    (hv : pkg.version = 1)
    (hdeps : ∀ n ∈ pkg.required_registered_operators, reg.contains n)
    (hnocol : ∀ op ∈ pkg.operators, ¬ reg.contains op.registration_name)
    (hfail : (loadOperatorPackage decode getQType register_ reg pkg).1.code
      ≠ StatusCode.ok) :
    ∃ k, ∃ hk : k < pkg.operators.length,
      processOperator decode getQType register_
          (loadOperatorPackage decode getQType register_ reg pkg).2 k
          (pkg.operators.get ⟨k, hk⟩)
        = Except.error (loadOperatorPackage decode getQType register_ reg pkg).1 ∧
      ∀ j, ∀ hj : j < k,
        (pkg.operators.get ⟨j, lt_trans hj hk⟩).registration_name
          ∈ (loadOperatorPackage decode getQType register_ reg pkg).2 := by
  have hload : loadOperatorPackage decode getQType register_ reg pkg
      = loadOperators decode getQType register_ reg 0 pkg.operators := by
    unfold loadOperatorPackage
    rw [if_neg (by rw [hv]; simp), if_neg (by simp [collectMissing_eq_nil reg pkg hdeps]),
      if_neg (by simp [collectAlready_eq_nil reg pkg hnocol])]
  rw [hload] at hfail ⊢
  obtain ⟨k, hk, hstep, hprev⟩ :=
    loadOperators_fail decode getQType register_ hmono pkg.operators reg 0 hfail
  rw [Nat.zero_add] at hstep
  exact ⟨k, hk, hstep, hprev⟩

/-- Witness for C4: a two-operator package whose second operator's
implementation container publishes no value, so loading fails at index 1
while the first operator stays registered. -/
theorem load_no_rollback_witness :
    ∃ k, ∃ hk : k <
        (OperatorPackageProto.operators ⟨1, [], [⟨"a", true⟩, ⟨"b", false⟩]⟩).length,
      processOperator
          (fun c : Bool =>
            if c then Except.ok (DecodeResult.mk [()] ([] : List Unit))
            else Except.ok (DecodeResult.mk ([] : List Unit) ([] : List Unit)))
          (fun _ => exprOperatorQTypeName) (fun r n _ => Except.ok (n :: r))
          (loadOperatorPackage
            (fun c : Bool =>
              if c then Except.ok (DecodeResult.mk [()] ([] : List Unit))
              else Except.ok (DecodeResult.mk ([] : List Unit) ([] : List Unit)))
            (fun _ => exprOperatorQTypeName) (fun r n _ => Except.ok (n :: r))
            [] ⟨1, [], [⟨"a", true⟩, ⟨"b", false⟩]⟩).2 k
          ((OperatorPackageProto.operators ⟨1, [], [⟨"a", true⟩, ⟨"b", false⟩]⟩).get ⟨k, hk⟩)
        = Except.error (loadOperatorPackage
            (fun c : Bool =>
              if c then Except.ok (DecodeResult.mk [()] ([] : List Unit))
              else Except.ok (DecodeResult.mk ([] : List Unit) ([] : List Unit)))
            (fun _ => exprOperatorQTypeName) (fun r n _ => Except.ok (n :: r))
            [] ⟨1, [], [⟨"a", true⟩, ⟨"b", false⟩]⟩).1 ∧
      ∀ j, ∀ hj : j < k,
        ((OperatorPackageProto.operators ⟨1, [], [⟨"a", true⟩, ⟨"b", false⟩]⟩).get
            ⟨j, lt_trans hj hk⟩).registration_name
          ∈ (loadOperatorPackage
              (fun c : Bool =>
                if c then Except.ok (DecodeResult.mk [()] ([] : List Unit))
                else Except.ok (DecodeResult.mk ([] : List Unit) ([] : List Unit)))
              (fun _ => exprOperatorQTypeName) (fun r n _ => Except.ok (n :: r))
              [] ⟨1, [], [⟨"a", true⟩, ⟨"b", false⟩]⟩).2 :=
  load_no_rollback _ _ _
    (fun r n v r' h => by
      cases h; exact ⟨List.mem_cons_self n r, fun m hm => List.mem_cons_of_mem n hm⟩)
    [] ⟨1, [], [⟨"a", true⟩, ⟨"b", false⟩]⟩ rfl (by simp) (by decide) (by decide)

/-! ### Claim C6 -/

/-- C6: if decoding an operator's implementation container publishes a
number of values different from 1 or a number of expressions different
from 0, `LoadOperatorPackage` fails with `InvalidArgument` reporting the
actual value and expression counts together with the operator's index and
`registration_name`.  The operators before index `i` are assumed to load
fine (`hpre`), since the loop stops at the first failure. -/
theorem load_bad_shape_reports_counts {C V E : Type}
    (decode : C → Except Status (DecodeResult V E))
    (getQType : V → String)
    (register_ : List String → String → V → Except Status (List String))
    (hd : ∀ c st, decode c = Except.error st → st.code ≠ StatusCode.ok)
    (hr : ∀ r n v st, register_ r n v = Except.error st → st.code ≠ StatusCode.ok)
    (reg : List String) (pkg : OperatorPackageProto C)
    (hv : pkg.version = 1)
    (hdeps : ∀ n ∈ pkg.required_registered_operators, reg.contains n)
    (hnocol : ∀ op ∈ pkg.operators, ¬ reg.contains op.registration_name)
    (i : Nat) (hi : i < pkg.operators.length) (regi : List String)
    (hpre : loadOperators decode getQType register_ reg 0 (pkg.operators.take i)
      = (okStatus, regi))
    (dr : DecodeResult V E)
    (hdec : decode (pkg.operators.get ⟨i, hi⟩).implementation = Except.ok dr)
    (hshape : dr.values.length ≠ 1 ∨ dr.exprs.length ≠ 0) :
    loadOperatorPackage decode getQType register_ reg pkg =
      (⟨StatusCode.invalidArgument,
        "expected to get a value, got " ++ toString dr.values.length ++ " values and "
          ++ toString dr.exprs.length ++ " exprs; operators[" ++ toString i
          ++ "].registration_name=" ++ (pkg.operators.get ⟨i, hi⟩).registration_name⟩,
       regi) := by
  have hload : loadOperatorPackage decode getQType register_ reg pkg
      = loadOperators decode getQType register_ reg 0 pkg.operators := by
    unfold loadOperatorPackage
    rw [if_neg (by rw [hv]; simp), if_neg (by simp [collectMissing_eq_nil reg pkg hdeps]),
      if_neg (by simp [collectAlready_eq_nil reg pkg hnocol])]
  rw [hload]
  have hsplit : pkg.operators
      = pkg.operators.take i ++ (pkg.operators.get ⟨i, hi⟩ :: pkg.operators.drop (i + 1)) := by
    conv_lhs => rw [← List.take_append_drop i pkg.operators]
    rw [List.drop_eq_get_cons hi]
  conv_lhs => rw [hsplit]
  rw [loadOperators_append decode getQType register_ hd hr _ _ reg regi 0 hpre]
  have hlen : (pkg.operators.take i).length = i := by
    rw [List.length_take]
    omega
  rw [hlen, Nat.zero_add, loadOperators_cons]
  have hproc : processOperator decode getQType register_ regi i (pkg.operators.get ⟨i, hi⟩)
      = Except.error ⟨StatusCode.invalidArgument,
          "expected to get a value, got " ++ toString dr.values.length ++ " values and "
            ++ toString dr.exprs.length ++ " exprs; operators[" ++ toString i
            ++ "].registration_name=" ++ (pkg.operators.get ⟨i, hi⟩).registration_name⟩ := by
    unfold processOperator
    rw [hdec]
    rcases hvals : dr.values with _ | ⟨v, vs⟩
    · rcases hexprs : dr.exprs with _ | ⟨e, es⟩ <;> simp [hvals, hexprs]
    · rcases hvs : vs with _ | ⟨v2, vs2⟩
      · rcases hexprs : dr.exprs with _ | ⟨e, es⟩
        · exfalso
          rcases hshape with h | h
          · rw [hvals, hvs] at h; simp at h
          · rw [hexprs] at h; simp at h
        · simp [hvals, hvs, hexprs]
      · rcases hexprs : dr.exprs with _ | ⟨e, es⟩ <;> simp [hvals, hvs, hexprs]
  rw [hproc]

/-- Witness for C6, matching
`LoadOperatorPackageProtoTest.ErrorNoValueInOperatorImplementation`: a
single operator whose implementation publishes 0 values and 0
expressions. -/
theorem load_bad_shape_reports_counts_witness :
    loadOperatorPackage (fun _ : Unit => Except.ok (DecodeResult.mk ([] : List Unit) ([] : List Unit)))
        (fun _ => exprOperatorQTypeName) (fun r n _ => Except.ok (n :: r))
        [] ⟨1, [], [⟨"foo.bar", ()⟩]⟩ =
      (⟨StatusCode.invalidArgument,
        "expected to get a value, got " ++ toString (0 : Nat) ++ " values and "
          ++ toString (0 : Nat) ++ " exprs; operators[" ++ toString (0 : Nat)
          ++ "].registration_name=" ++ "foo.bar"⟩,
       []) :=
  load_bad_shape_reports_counts _ _ _
    (fun c st h => by simp at h) (fun r n v st h => by simp at h)
    [] ⟨1, [], [⟨"foo.bar", ()⟩]⟩ rfl (by simp) (by decide)
    0 (by decide) [] rfl (DecodeResult.mk [] []) rfl (by decide)

theorem regReplace_self (reg : QExprRegistry) (name : String) (f : FamilyEntry)
    (h : assocFind reg name = some f) : regReplace reg name f = reg := by
  induction reg with
  | nil => simp [assocFind] at h
  | cons kv rest ih =>
    obtain ⟨k, v⟩ := kv
    by_cases hk : k = name
    · subst hk
      unfold assocFind at h
      rw [if_pos rfl] at h
      injection h with h
      subst h
      unfold regReplace
      rw [if_pos rfl]
    · unfold assocFind at h
      rw [if_neg hk] at h
      unfold regReplace
      rw [if_neg hk, ih h]

/-! ### Claim C9 -/

/-- C9: `RegisterOperator` fails with `AlreadyExists` when a distinct,
incompatible entity (a non-combined operator family) already owns the
name, but succeeds as a benign no-op — leaving the registry unchanged —
when an operator with an identical input-type signature is re-registered
under the same name. -/
theorem registerOperator_collision_vs_benign_noop
    (isOperatorName : String → Bool) (reg : QExprRegistry) (op : QExprOp)
    (hname : isOperatorName op.name = true) :
    (∀ objId, assocFind reg op.name = some (FamilyEntry.custom objId) →
      registerOperator isOperatorName reg op =
        (⟨StatusCode.alreadyExists,
          "trying to register a single QExpr operator and an operator family under the same name "
            ++ op.name⟩, reg)) ∧
    (∀ ops op0, assocFind reg op.name = some (FamilyEntry.combined ops) →
      assocFind ops op.sig.inputTypes = some op0 →
      registerOperator isOperatorName reg op = (okStatus, reg)) := by
  constructor
  · intro objId hfind
    unfold registerOperator
    rw [hname, hfind]
    simp
  · intro ops op0 hfind hkey
    have h1 : combinedInsert ops op = ops := by
      unfold combinedInsert
      rw [hkey]
    have h2 := regReplace_self reg op.name (FamilyEntry.combined ops) hfind
    simp [registerOperator, hname, hfind, h1, h2]

/-- Witness for C9: a custom family owning `test.op` rejects an operator
registration with `AlreadyExists`, while re-registering an operator whose
input types `[1]` are already present in a combined family under
`test.op2` is accepted and leaves the registry unchanged (even though the
new operator differs in output type and identity). -/
theorem registerOperator_collision_vs_benign_noop_witness :
    registerOperator (fun _ => true) [("test.op", FamilyEntry.custom 7)]
        ⟨"test.op", ⟨[1], 2⟩, 5⟩ =
      (⟨StatusCode.alreadyExists,
        "trying to register a single QExpr operator and an operator family under the same name "
          ++ "test.op"⟩, [("test.op", FamilyEntry.custom 7)]) ∧
    registerOperator (fun _ => true)
        [("test.op2", FamilyEntry.combined [([1], ⟨"test.op2", ⟨[1], 2⟩, 9⟩)])]
        ⟨"test.op2", ⟨[1], 3⟩, 6⟩ =
      (okStatus, [("test.op2", FamilyEntry.combined [([1], ⟨"test.op2", ⟨[1], 2⟩, 9⟩)])]) :=
  ⟨(registerOperator_collision_vs_benign_noop (fun _ => true)
      [("test.op", FamilyEntry.custom 7)] ⟨"test.op", ⟨[1], 2⟩, 5⟩ rfl).1 7 rfl,
   (registerOperator_collision_vs_benign_noop (fun _ => true)
      [("test.op2", FamilyEntry.combined [([1], ⟨"test.op2", ⟨[1], 2⟩, 9⟩)])]
      ⟨"test.op2", ⟨[1], 3⟩, 6⟩ rfl).2
      [([1], ⟨"test.op2", ⟨[1], 2⟩, 9⟩)] ⟨"test.op2", ⟨[1], 2⟩, 9⟩ rfl rfl⟩

/-! ### Claim C10 -/

/-- C10: for every name that is not a syntactically valid operator name,
both `RegisterOperator` and `RegisterOperatorFamily` fail with
`InvalidArgument` ("incorrect operator name") and leave the registry
unchanged; the name validation happens before any insertion. -/
theorem register_invalid_name_rejected
    (isOperatorName : String → Bool) (reg : QExprRegistry) (op : QExprOp)
    (name : String) (familyObjId : Nat)
    (hop : isOperatorName op.name = false)
    (hname : isOperatorName name = false) :
    registerOperator isOperatorName reg op =
      (⟨StatusCode.invalidArgument, "incorrect operator name \"" ++ op.name ++ "\""⟩,
       reg) ∧
    registerOperatorFamily isOperatorName reg name familyObjId =
      (⟨StatusCode.invalidArgument, "incorrect operator name \"" ++ name ++ "\""⟩,
       reg) := by
  constructor
  · unfold registerOperator
    rw [hop]
    simp
  · unfold registerOperatorFamily
    rw [hname]
    simp

/-- Witness for C10: the empty string is not a valid operator name under
any sensible validity predicate; both registration paths reject it and
leave the registry unchanged. -/
theorem register_invalid_name_rejected_witness :
    registerOperator (fun n => !n.isEmpty) [("math.add", FamilyEntry.custom 1)]
        ⟨"", ⟨[1], 2⟩, 5⟩ =
      (⟨StatusCode.invalidArgument, "incorrect operator name \"" ++ "" ++ "\""⟩,
       [("math.add", FamilyEntry.custom 1)]) ∧
    registerOperatorFamily (fun n => !n.isEmpty) [("math.add", FamilyEntry.custom 1)]
        "" 9 =
      (⟨StatusCode.invalidArgument, "incorrect operator name \"" ++ "" ++ "\""⟩,
       [("math.add", FamilyEntry.custom 1)]) :=
  register_invalid_name_rejected (fun n => !n.isEmpty)
    [("math.add", FamilyEntry.custom 1)] ⟨"", ⟨[1], 2⟩, 5⟩ "" 9 rfl rfl

/-! ### Claim C5 -/

/-- C5 counterexample: a container whose version field is absent (the
proto default 0, as built by `ProcessContainerProto.MissingContainerVersion`)
fails with `InvalidArgument`, but its message is the fixed string
"missing container.version", which mentions neither the expected version
1 nor the actual version 0 — refuting the claim that the message always
mentions both. -/
theorem containerVersion_gate_counterexample :
    (checkContainerVersion none).code = StatusCode.invalidArgument ∧
    (checkContainerVersion none).message = "missing container.version" ∧
    ¬ mentions (checkContainerVersion none).message "1" ∧
    ¬ mentions (checkContainerVersion none).message "0" := by
  refine ⟨rfl, rfl, ?_, ?_⟩ <;> decide

/-- C5 (amended): processing any container whose version is not 1 fails
with `InvalidArgument`; when the version field is present the message
mentions both the expected version (1) and the actual version; when the
field is absent (the default/missing value 0) the message is the fixed
string "missing container.version". -/
theorem containerVersion_gate (version : Option Nat) (h : version ≠ some 1) :
    (checkContainerVersion version).code = StatusCode.invalidArgument ∧
    (∀ v, version = some v →
      (checkContainerVersion version).message
          = "expected container.version to be 1, got " ++ toString v ∧
      mentions (checkContainerVersion version).message "1" ∧
      mentions (checkContainerVersion version).message (toString v)) ∧
    (version = none →
      (checkContainerVersion version).message = "missing container.version") := by
  cases version with
  | none =>
    refine ⟨rfl, ?_, fun _ => rfl⟩
    intro v hv
    exact absurd hv (by simp)
  | some v =>
    have hv : v ≠ 1 := fun hv => h (by rw [hv])
    have hmsg : checkContainerVersion (some v)
        = ⟨StatusCode.invalidArgument,
            "expected container.version to be 1, got " ++ toString v⟩ := by
      simp only [checkContainerVersion]
      rw [if_pos hv]
    refine ⟨by rw [hmsg], ?_, fun hn => by cases hn⟩
    intro w hw
    injection hw with hw
    subst hw
    rw [hmsg]
    refine ⟨rfl, ?_, ?_⟩
    · obtain ⟨s, t, hst⟩ :=
        (by decide : mentions ("expected container.version to be 1, got ") "1")
      refine ⟨s, t ++ (toString v).data, ?_⟩
      have := congrArg (· ++ (toString v).data) hst
      simpa [String.data_append, List.append_assoc] using this
    · refine ⟨("expected container.version to be 1, got ").data, [], ?_⟩
      simp [String.data_append]

/-- Witness for C5 (amended), matching
`ProcessContainerProto.WrongContainerVersion`: version 100 fails with a
message carrying both 1 and 100. -/
theorem containerVersion_gate_witness :
    (checkContainerVersion (some 100)).code = StatusCode.invalidArgument ∧
    (checkContainerVersion (some 100)).message
        = "expected container.version to be 1, got " ++ toString (100 : Nat) ∧
    mentions (checkContainerVersion (some 100)).message "1" ∧
    mentions (checkContainerVersion (some 100)).message (toString (100 : Nat)) :=
  ⟨(containerVersion_gate (some 100) (by simp)).1,
   (containerVersion_gate (some 100) (by simp)).2.1 100 rfl⟩

/-! ### Dumper lemmas -/

theorem findDuplicate_eq_none (names : List String) :
    ∀ seen, names.Nodup → (∀ n ∈ names, n ∉ seen) →
      findDuplicate seen names = none := by
  induction names with
  | nil => intro seen _ _; rfl
  | cons n rest ih =>
    intro seen hnd hdisj
    unfold findDuplicate
    rw [if_neg (by simpa using hdisj n (List.mem_cons_self n rest))]
    apply ih (seen ++ [n]) (List.nodup_cons.mp hnd).2
    intro m hm
    simp only [List.mem_append, List.mem_singleton]
    rintro (h | rfl)
    · exact hdisj m (List.mem_cons_of_mem n hm) h
    · exact (List.nodup_cons.mp hnd).1 hm

theorem lookupImpls_ok (registry : List (String × PkgExpr)) :
    ∀ names : List String, (∀ n ∈ names, (assocFind registry n).isSome) →
      ∃ impls, lookupImpls registry names = Except.ok impls ∧
        impls.map Prod.fst = names ∧
        ∀ p ∈ impls, assocFind registry p.1 = some p.2 := by
  intro names
  induction names with
  | nil => intro _; exact ⟨[], rfl, rfl, by simp⟩
  | cons n rest ih =>
    intro hsome
    obtain ⟨impl, himpl⟩ :=
      Option.isSome_iff_exists.mp (hsome n (List.mem_cons_self n rest))
    obtain ⟨tail, htail, hmap, hassoc⟩ :=
      ih (fun m hm => hsome m (List.mem_cons_of_mem n hm))
    refine ⟨(n, impl) :: tail, ?_, by simp [hmap], ?_⟩
    · unfold lookupImpls
      rw [himpl, htail]
    · intro p hp
      rcases List.mem_cons.mp hp with rfl | hp
      · exact himpl
      · exact hassoc p hp

theorem topoOk_true_refs (allNames : List String) :
    ∀ (l : List (String × PkgExpr)) (earlier : List String),
      topoOk allNames earlier l = true →
      ∀ k p, l[k]? = some p → ∀ r, r ∈ pkgExprRefs p.2 →
        allNames.contains r = true →
        r ∈ earlier ++ ((l.take (k + 1)).map Prod.fst) := by
  intro l
  induction l with
  | nil => intro earlier _ k p hp; simp at hp
  | cons q rest ih =>
    obtain ⟨n, impl⟩ := q
    intro earlier htopo k p hp r hr hall
    unfold topoOk at htopo
    rw [Bool.and_eq_true] at htopo
    obtain ⟨hhead, htail⟩ := htopo
    cases k with
    | zero =>
      rw [List.getElem?_cons_zero] at hp
      injection hp with hp
      subst hp
      rw [List.all_eq_true] at hhead
      have h2 := hhead r hr
      rw [hall] at h2
      simp only [Bool.not_true, Bool.false_or] at h2
      have hmem : r ∈ earlier ++ [n] := by simpa using h2
      simpa using hmem
    | succ k =>
      rw [List.getElem?_cons_succ] at hp
      have hstep := ih (earlier ++ [n]) htail k p hp r hr hall
      have harr : (earlier ++ [n]) ++ ((rest.take (k + 1)).map Prod.fst)
          = earlier ++ (((n, impl) :: rest).take (k + 1 + 1)).map Prod.fst := by
        simp [List.append_assoc]
      rw [harr] at hstep
      exact hstep

theorem mem_requiredRegisteredOperators (names : List String)
    (impls : List (String × PkgExpr)) (r : String) :
    r ∈ requiredRegisteredOperators names impls ↔
      (∃ p ∈ impls, r ∈ pkgExprRefs p.2) ∧ ¬ r ∈ names := by
  unfold requiredRegisteredOperators
  rw [mem_collectSet, List.mem_filter]
  simp only [List.mem_flatten, List.mem_map]
  constructor
  · rintro ⟨⟨l, ⟨p, hp, rfl⟩, hrl⟩, hnames⟩
    exact ⟨⟨p, hp, hrl⟩, by simpa using hnames⟩
  · rintro ⟨⟨p, hp, hrl⟩, hnames⟩
    exact ⟨⟨pkgExprRefs p.2, ⟨p, hp, rfl⟩, hrl⟩, by simpa using hnames⟩

/-! ### Claim C7 -/

/-- C7: dumping computes `required_registered_operators` as exactly the
sorted set of operator names transitively referenced by the exported
operators' implementations that are not themselves in the export list; in
particular, with `op2` calling `op1`, dumping `[op1, op2]` yields an
empty required list (and two operators) and dumping `[op2]` alone yields
`required_registered_operators = [op1]`. -/
theorem dump_required_registered_operators_exact :
    (∀ (registry : List (String × PkgExpr)) (names : List String)
        (pkg : OperatorPackageProto PkgExpr),
      dumpOperatorPackage registry names = Except.ok pkg →
      List.Sorted (· < ·) pkg.required_registered_operators ∧
      ∀ r, r ∈ pkg.required_registered_operators ↔
        (∃ op ∈ pkg.operators, r ∈ pkgExprRefs op.implementation) ∧ ¬ r ∈ names) ∧
    dumpOperatorPackage demoRegistry ["op1", "op2"]
      = Except.ok ⟨1, [], [⟨"op1", demoImpl1⟩, ⟨"op2", demoImpl2⟩]⟩ ∧
    dumpOperatorPackage demoRegistry ["op2"]
      = Except.ok ⟨1, ["op1"], [⟨"op2", demoImpl2⟩]⟩ := by
  refine ⟨?_, rfl, rfl⟩
  intro registry names pkg h
  unfold dumpOperatorPackage at h
  split at h
  · simp at h
  · split at h
    · simp at h
    · next impls heq =>
      split at h
      · injection h with h
        subst h
        refine ⟨sorted_collectSet _, ?_⟩
        intro r
        rw [show OperatorPackageProto.required_registered_operators
              ⟨1, requiredRegisteredOperators names impls,
                impls.map (fun p => ⟨p.1, p.2⟩)⟩
            = requiredRegisteredOperators names impls from rfl,
          mem_requiredRegisteredOperators]
        constructor
        · rintro ⟨⟨p, hp, hrl⟩, hnames⟩
          exact ⟨⟨⟨p.1, p.2⟩, List.mem_map.mpr ⟨p, hp, rfl⟩, hrl⟩, hnames⟩
        · rintro ⟨⟨op, hop, hrl⟩, hnames⟩
          obtain ⟨p, hp, rfl⟩ := List.mem_map.mp hop
          exact ⟨⟨p, hp, hrl⟩, hnames⟩
      · simp at h

/-- Witness for C7: the characterization applied to the concrete dump of
`[op2]` against the demo registry. -/
theorem dump_required_registered_operators_exact_witness :
    List.Sorted (· < ·)
      (OperatorPackageProto.required_registered_operators
        (⟨1, ["op1"], [⟨"op2", demoImpl2⟩]⟩ : OperatorPackageProto PkgExpr)) ∧
    ∀ r, r ∈ OperatorPackageProto.required_registered_operators
        (⟨1, ["op1"], [⟨"op2", demoImpl2⟩]⟩ : OperatorPackageProto PkgExpr) ↔
      (∃ op ∈ [(⟨"op2", demoImpl2⟩ : OperatorProto PkgExpr)],
        r ∈ pkgExprRefs op.implementation) ∧ ¬ r ∈ ["op2"] :=
  dump_required_registered_operators_exact.1 demoRegistry ["op2"]
    ⟨1, ["op1"], [⟨"op2", demoImpl2⟩]⟩ rfl

/-! ### Claim C8 -/

/-- C8 counterexample: the export request `[op2, op1, op1]` contains an
exported operator (`op2`, at index 0) that references another exported
operator (`op1`) appearing later in the list, yet dumping fails with the
duplicate-name message, not the topological-order message: the duplicate
check of dump step 1 runs before the topological check of step 4. -/
theorem dump_topological_order_counterexample :
    "op1" ∈ pkgExprRefs demoImpl2 ∧
    assocFind demoRegistry ("op2") = some demoImpl2 ∧
    dumpOperatorPackage demoRegistry ["op2", "op1", "op1"]
      = Except.error ⟨StatusCode.invalidArgument,
          "operator op1 is listed multiple times"⟩ ∧
    ¬ mentions ("operator op1 is listed multiple times") "topological" := by
  refine ⟨?_, rfl, rfl, by decide⟩
  show "op1" ∈ ["op1"]
  simp

/-- C8 (amended): for every duplicate-free dump request whose names all
resolve in the registry, if some exported operator's implementation
references another exported operator that appears later in the caller's
list, dumping fails with `InvalidArgument` whose message says the
operator names were expected in topological order. -/
theorem dump_topological_order_violation
    (registry : List (String × PkgExpr)) (names : List String)
    (hnodup : names.Nodup)
    (hlookup : ∀ n ∈ names, (assocFind registry n).isSome)
    (hviol : ∃ (i j : Nat) (ni nj : String) (impl : PkgExpr),
      i < j ∧ names[i]? = some ni ∧ names[j]? = some nj ∧
      assocFind registry ni = some impl ∧ nj ∈ pkgExprRefs impl) :
    dumpOperatorPackage registry names
      = Except.error ⟨StatusCode.invalidArgument,
          "expected the operator names to be given in topological order"⟩ := by
  obtain ⟨impls, himpls, hmap, hassoc⟩ := lookupImpls_ok registry names hlookup
  have htopo : topoOk names [] impls = false := by
    by_contra htrue
    rw [Bool.not_eq_false] at htrue
    obtain ⟨i, j, ni, nj, impl, hij, hni, hnj, himpl, href⟩ := hviol
    have hmi : (impls.map Prod.fst)[i]? = some ni := by rw [hmap]; exact hni
    rw [List.getElem?_map] at hmi
    obtain ⟨p, hp, hpfst⟩ := Option.map_eq_some'.mp hmi
    have hpsnd : p.2 = impl := by
      have h1 := hassoc p (List.getElem?_mem hp)
      rw [hpfst, himpl] at h1
      injection h1 with h1
      exact h1.symm
    have hmem := topoOk_true_refs names impls [] htrue i p hp nj
      (by rw [hpsnd]; exact href)
      (by
        have h3 : nj ∈ names := List.getElem?_mem hnj
        simpa using h3)
    rw [List.nil_append, List.map_take, hmap] at hmem
    have hdrop : nj ∈ names.drop (i + 1) := by
      have h2 : (names.drop (i + 1))[j - (i + 1)]? = some nj := by
        rw [List.getElem?_drop, show i + 1 + (j - (i + 1)) = j from by omega]
        exact hnj
      exact List.getElem?_mem h2
    have hnd2 : (names.take (i + 1) ++ names.drop (i + 1)).Nodup := by
      rw [List.take_append_drop]; exact hnodup
    exact (List.nodup_append.mp hnd2).2.2 hmem hdrop
  unfold dumpOperatorPackage
  rw [findDuplicate_eq_none names [] hnodup (by simp), himpls]
  simp [htopo]

/-- Witness for C8 (amended), matching the `[op2, op1]` case of
`DumpOperatorPackageProtoTest.Basics`. -/
theorem dump_topological_order_violation_witness :
    dumpOperatorPackage demoRegistry ["op2", "op1"]
      = Except.error ⟨StatusCode.invalidArgument,
          "expected the operator names to be given in topological order"⟩ :=
  dump_topological_order_violation demoRegistry ["op2", "op1"]
    (by simp) (by intro n hn; fin_cases hn <;> rfl)
    ⟨0, 1, "op2", "op1", demoImpl2, by omega, rfl, rfl, rfl, by
      show "op1" ∈ "op1" :: pkgExprListRefs [PkgExpr.placeholder ("x")]
      exact List.mem_cons_self _ _⟩

/-! ### Serialization lemmas -/

mutual
theorem exprBeq_sound {V : Type} [DecidableEq V] :
    ∀ e1 e2 : ExprNode V, exprBeq e1 e2 = true → e1 = e2
  | ExprNode.literal v1, e2, h => by
    cases e2 <;> simp only [exprBeq, decide_eq_true_eq, Bool.false_eq_true] at h
    rw [h]
  | ExprNode.leaf k1, e2, h => by
    cases e2 <;> simp only [exprBeq, decide_eq_true_eq, Bool.false_eq_true] at h
    rw [h]
  | ExprNode.placeholder k1, e2, h => by
    cases e2 <;> simp only [exprBeq, decide_eq_true_eq, Bool.false_eq_true] at h
    rw [h]
  | ExprNode.operation o1 a1, e2, h => by
    cases e2 <;> simp only [exprBeq, Bool.and_eq_true, decide_eq_true_eq,
      Bool.false_eq_true] at h
    obtain ⟨h1, h2⟩ := h
    rw [h1, exprListBeq_sound a1 _ h2]

theorem exprListBeq_sound {V : Type} [DecidableEq V] :
    ∀ l1 l2 : List (ExprNode V), exprListBeq l1 l2 = true → l1 = l2
  | [], [], _ => rfl
  | [], _ :: _, h => by simp [exprListBeq] at h
  | _ :: _, [], h => by simp [exprListBeq] at h
  | e1 :: r1, e2 :: r2, h => by
    unfold exprListBeq at h
    rw [Bool.and_eq_true] at h
    obtain ⟨h1, h2⟩ := h
    rw [exprBeq_sound e1 e2 h1, exprListBeq_sound r1 r2 h2]
end

theorem assocFind_mem {α β : Type} [DecidableEq α] :
    ∀ (l : List (α × β)) (a : α) (b : β), assocFind l a = some b → (a, b) ∈ l
  | [], a, b, h => by simp [assocFind] at h
  | (k, v) :: rest, a, b, h => by
    unfold assocFind at h
    split at h
    · next hk =>
      injection h with h
      subst hk h
      exact List.mem_cons_self _ _
    · exact List.mem_cons_of_mem _ (assocFind_mem rest a b h)

theorem exprMemoFind_mem {V : Type} [DecidableEq V] :
    ∀ (memo : List (ExprNode V × Nat)) (e : ExprNode V) (i : Nat),
      exprMemoFind memo e = some i → (e, i) ∈ memo
  | [], e, i, h => by simp [exprMemoFind] at h
  | (e2, j) :: rest, e, i, h => by
    unfold exprMemoFind at h
    split at h
    · next hbeq =>
      injection h with h
      subst h
      rw [← exprBeq_sound e2 e hbeq]
      exact List.mem_cons_self _ _
    · exact List.mem_cons_of_mem _ (exprMemoFind_mem rest e i h)

theorem codecIndex_getElem :
    ∀ (codecs : List String) (name : String) (i : Nat),
      codecIndex codecs name = some i → codecs[i]? = some name
  | [], name, i, h => by simp [codecIndex] at h
  | c :: rest, name, i, h => by
    unfold codecIndex at h
    split at h
    · next hc =>
      injection h with h
      subst h hc
      simp
    · match hrec : codecIndex rest name with
      | none => rw [hrec] at h; simp at h
      | some j =>
        rw [hrec] at h
        simp only [Option.map_some'] at h
        injection h with h
        subst h
        simpa using codecIndex_getElem rest name j hrec

theorem getOrErr_ok {α : Type} (l : List α) (i : Nat) (a : α) (w : String)
    (h : l[i]? = some a) : getOrErr l i w = Except.ok a := by
  unfold getOrErr
  rw [h]

theorem declareCodec_spec (codecs : List String) (name : String) :
    ((declareCodec codecs name).2)[(declareCodec codecs name).1]? = some name ∧
    (∀ m ∈ (declareCodec codecs name).2, m ∈ codecs ∨ m = name) ∧
    (∀ (i : Nat) (x : String), codecs[i]? = some x →
      ((declareCodec codecs name).2)[i]? = some x) := by
  unfold declareCodec
  split
  · next i hidx =>
    exact ⟨codecIndex_getElem codecs name i hidx, fun m hm => Or.inl hm,
      fun i x hx => hx⟩
  · refine ⟨?_, ?_, ?_⟩
    · simp
    · intro m hm
      simpa using hm
    · intro i x hx
      have hb : i < codecs.length := (List.getElem?_eq_some.mp hx).1
      rw [List.getElem?_append_left hb]
      exact hx

theorem except_bind_ok {ε α β : Type} (a : α) (f : α → Except ε β) :
    (Except.ok a >>= f : Except ε β) = f a := rfl

theorem except_bind_err {ε α β : Type} (e : ε) (f : α → Except ε β) :
    (Except.error e >>= f : Except ε β) = Except.error e := rfl

theorem decodeStep_codecs_pres {V P : Type} (reg : CodecRegistry V P)
    (codecs codecs2 : List String)
    (hpt : ∀ (i : Nat) (x : String), codecs[i]? = some x → codecs2[i]? = some x)
    (s s2 : DecState V) (step : DecodingStep P)
    (h : decodeStep reg codecs s step = Except.ok s2) :
    decodeStep reg codecs2 s step = Except.ok s2 := by
  cases step with
  | leafNode key => exact h
  | placeholderNode key => exact h
  | literalNode vi => exact h
  | operationNode ovi argIdxs => exact h
  | valueNode ci payload ivs ies =>
    simp only [decodeStep] at h ⊢
    cases hidx : codecs[ci]? with
    | none =>
      rw [show getOrErr codecs ci ("codec")
          = Except.error ⟨StatusCode.invalidArgument,
              "codec" ++ " index " ++ toString ci ++ " is out of range"⟩ from by
        unfold getOrErr; rw [hidx], except_bind_err] at h
      simp at h
    | some name =>
      rw [getOrErr_ok codecs ci name _ hidx, except_bind_ok] at h
      rw [getOrErr_ok codecs2 ci name _ (hpt ci name hidx), except_bind_ok]
      exact h

theorem runDecodingSteps_nil {V P : Type} (reg : CodecRegistry V P)
    (codecs : List String) (s : DecState V) (i : Nat) :
    runDecodingSteps reg codecs s i [] = Except.ok s := rfl

theorem runDecodingSteps_cons {V P : Type} (reg : CodecRegistry V P)
    (codecs : List String) (s : DecState V) (i : Nat) (step : DecodingStep P)
    (rest : List (DecodingStep P)) :
    runDecodingSteps reg codecs s i (step :: rest)
      = match decodeStep reg codecs s step with
        | Except.error st =>
          Except.error (st.annotate ("while handling decoding_steps[" ++ toString i ++ "]"))
        | Except.ok s2 => runDecodingSteps reg codecs s2 (i + 1) rest := rfl

theorem runDecodingSteps_codecs_pres {V P : Type} (reg : CodecRegistry V P)
    (codecs codecs2 : List String)
    (hpt : ∀ (i : Nat) (x : String), codecs[i]? = some x → codecs2[i]? = some x) :
    ∀ (steps : List (DecodingStep P)) (s s2 : DecState V) (i : Nat),
      runDecodingSteps reg codecs s i steps = Except.ok s2 →
      runDecodingSteps reg codecs2 s i steps = Except.ok s2 := by
  intro steps
  induction steps with
  | nil => intro s s2 i h; exact h
  | cons step rest ih =>
    intro s s2 i h
    rw [runDecodingSteps_cons] at h ⊢
    cases hd : decodeStep reg codecs s step with
    | error st => rw [hd] at h; simp at h
    | ok smid =>
      rw [hd] at h
      rw [decodeStep_codecs_pres reg codecs codecs2 hpt s smid step hd]
      exact ih smid s2 (i + 1) h

theorem runDecodingSteps_append {V P : Type} (reg : CodecRegistry V P)
    (codecs : List String) :
    ∀ (l1 l2 : List (DecodingStep P)) (s smid : DecState V) (i : Nat),
      runDecodingSteps reg codecs s i l1 = Except.ok smid →
      runDecodingSteps reg codecs s i (l1 ++ l2)
        = runDecodingSteps reg codecs smid (i + l1.length) l2 := by
  intro l1
  induction l1 with
  | nil =>
    intro l2 s smid i h
    have h2 : smid = s := by
      rw [runDecodingSteps_nil] at h
      injection h with h
      exact h.symm
    subst h2
    simp
  | cons step rest ih =>
    intro l2 s smid i h
    rw [runDecodingSteps_cons] at h
    rw [List.cons_append, runDecodingSteps_cons]
    cases hd : decodeStep reg codecs s step with
    | error st => rw [hd] at h; simp at h
    | ok smid2 =>
      rw [hd] at h
      have h2 : runDecodingSteps reg codecs smid2 (i + 1) rest = Except.ok smid := h
      have h4 : i + 1 + rest.length = i + (step :: rest).length := by
        simp only [List.length_cons]
        omega
      show runDecodingSteps reg codecs smid2 (i + 1) (rest ++ l2)
          = runDecodingSteps reg codecs smid (i + (step :: rest).length) l2
      rw [ih l2 smid2 smid (i + 1) h2, h4]

theorem mapM_getOrErr_forall2 {α : Type} (l : List α) (w : String)
    (idxs : List Nat) (xs : List α)
    (h : List.Forall₂ (fun x i => l[i]? = some x) xs idxs) :
    idxs.mapM (fun i => getOrErr l i w) = Except.ok xs := by
  induction h with
  | nil => rfl
  | cons h1 h2 ih =>
    rw [List.mapM_cons, getOrErr_ok _ _ _ _ h1, except_bind_ok, ih, except_bind_ok]
    rfl

theorem decodeStep_valueNode_ok {V P : Type} (reg : CodecRegistry V P)
    (codecs : List String) (s : DecState V) (ci : Nat) (payload : P)
    (name : String) (d : ValueDecoder V P) (v : V)
    (h1 : codecs[ci]? = some name) (h2 : reg name = some d)
    (h3 : d payload [] [] = Except.ok v) :
    decodeStep reg codecs s (DecodingStep.valueNode ci payload [] [])
      = Except.ok ⟨s.values ++ [v], s.exprs⟩ := by
  simp only [decodeStep]
  rw [getOrErr_ok codecs ci name _ h1, except_bind_ok, h2]
  show ([] : List Nat).mapM (fun i => getOrErr s.values i ("value")) >>= _ = _
  rw [show ([] : List Nat).mapM (fun i => getOrErr s.values i ("value"))
      = Except.ok [] from rfl, except_bind_ok]
  rw [show ([] : List Nat).mapM (fun i => getOrErr s.exprs i ("expression"))
      = Except.ok [] from rfl, except_bind_ok]
  rw [h3]

theorem encodeValue_ok {V P : Type} [DecidableEq V] (encV : ValueEncoder V P)
    (reg : CodecRegistry V P) (v : V) (s : EncState V P) (ds : DecState V)
    (hinv : EncInv reg s ds) (hcompat : CodecCompat encV reg v) :
    ∃ i s2 ds2, encodeValue encV v s = Except.ok (i, s2) ∧ EncInv reg s2 ds2 ∧
      (v, i) ∈ s2.valueMemo ∧
      (∀ p ∈ s.valueMemo, p ∈ s2.valueMemo) ∧
      (∀ p ∈ s.exprMemo, p ∈ s2.exprMemo) := by
  cases hfind : assocFind s.valueMemo v with
  | some i =>
    have henc : encodeValue encV v s = Except.ok (i, s) := by
      unfold encodeValue
      rw [hfind]
    exact ⟨i, s, ds, henc, hinv, assocFind_mem _ _ _ hfind,
      fun p hp => hp, fun p hp => hp⟩
  | none =>
    obtain ⟨name, payload, d, henc, hreg, hdec⟩ := hcompat
    obtain ⟨hci, hcodecsmem, hpres⟩ := declareCodec_spec s.codecs name
    have hencv : encodeValue encV v s = Except.ok (s.numValues,
        ⟨(declareCodec s.codecs name).2,
         s.steps ++ [DecodingStep.valueNode (declareCodec s.codecs name).1 payload [] []],
         s.valueMemo ++ [(v, s.numValues)], s.exprMemo,
         s.numValues + 1, s.numExprs⟩) := by
      unfold encodeValue
      rw [hfind, henc]
    refine ⟨s.numValues, _, ⟨ds.values ++ [v], ds.exprs⟩, hencv, ?_, ?_, ?_, ?_⟩
    · refine ⟨?_, ?_, ?_, ?_, ?_, ?_⟩
      · -- replaying the extended step list
        show runDecodingSteps reg (declareCodec s.codecs name).2 ⟨[], []⟩ 0
            (s.steps ++ [DecodingStep.valueNode (declareCodec s.codecs name).1 payload [] []])
          = Except.ok ⟨ds.values ++ [v], ds.exprs⟩
        have hrun2 : runDecodingSteps reg (declareCodec s.codecs name).2 ⟨[], []⟩ 0 s.steps
            = Except.ok ds :=
          runDecodingSteps_codecs_pres reg s.codecs _ hpres s.steps _ ds 0 hinv.run_ok
        rw [runDecodingSteps_append reg _ s.steps _ _ ds 0 hrun2,
          runDecodingSteps_cons,
          decodeStep_valueNode_ok reg _ ds _ payload name d v hci hreg hdec]
        rfl
      · -- every declared codec stays registered
        intro m hm
        rcases hcodecsmem m hm with h | rfl
        · exact hinv.codecs_reg m h
        · rw [hreg]; rfl
      · show (ds.values ++ [v]).length = s.numValues + 1
        rw [List.length_append, hinv.values_len]
        rfl
      · exact hinv.exprs_len
      · intro w i hw
        rcases List.mem_append.mp hw with hw | hw
        · have := hinv.value_memo w i hw
          rw [List.getElem?_append_left (by
            exact (List.getElem?_eq_some.mp this).1)]
          exact this
        · rcases List.mem_singleton.mp hw with h
          injection h with h1 h2
          subst h1 h2
          rw [← hinv.values_len]
          simp
      · intro e i he
        exact hinv.expr_memo e i he
    · show (v, s.numValues) ∈ s.valueMemo ++ [(v, s.numValues)]
      simp
    · intro p hp
      exact List.mem_append.mpr (Or.inl hp)
    · intro p hp
      exact hp

mutual
theorem encodeExpr_ok {V P : Type} [DecidableEq V] (encV : ValueEncoder V P)
    (reg : CodecRegistry V P) :
    ∀ (e : ExprNode V) (s : EncState V P) (ds : DecState V),
      EncInv reg s ds →
      (∀ v ∈ exprValues e, CodecCompat encV reg v) →
      ∃ i s2 ds2, encodeExpr encV e s = Except.ok (i, s2) ∧ EncInv reg s2 ds2 ∧
        (e, i) ∈ s2.exprMemo ∧
        (∀ p ∈ s.valueMemo, p ∈ s2.valueMemo) ∧
        (∀ p ∈ s.exprMemo, p ∈ s2.exprMemo)
  | ExprNode.literal v, s, ds, hinv, hcompat => by
    cases hfind : exprMemoFind s.exprMemo (ExprNode.literal v) with
    | some i =>
      refine ⟨i, s, ds, ?_, hinv, exprMemoFind_mem _ _ _ hfind,
        fun p hp => hp, fun p hp => hp⟩
      simp only [encodeExpr]
      rw [hfind]
    | none =>
      have hc : CodecCompat encV reg v := hcompat v (by simp [exprValues])
      obtain ⟨vi, s1, ds1, henc1, hinv1, hmemo1, hvmono1, hemono1⟩ :=
        encodeValue_ok encV reg v s ds hinv hc
      refine ⟨s1.numExprs,
        ⟨s1.codecs, s1.steps ++ [DecodingStep.literalNode vi], s1.valueMemo,
         s1.exprMemo ++ [(ExprNode.literal v, s1.numExprs)],
         s1.numValues, s1.numExprs + 1⟩,
        ⟨ds1.values, ds1.exprs ++ [ExprNode.literal v]⟩, ?_, ?_, ?_, ?_, ?_⟩
      · simp only [encodeExpr, hfind, henc1]
      · refine ⟨?_, hinv1.codecs_reg, hinv1.values_len, ?_, hinv1.value_memo, ?_⟩
        · show runDecodingSteps reg s1.codecs ⟨[], []⟩ 0
              (s1.steps ++ [DecodingStep.literalNode vi])
            = Except.ok ⟨ds1.values, ds1.exprs ++ [ExprNode.literal v]⟩
          rw [runDecodingSteps_append reg s1.codecs s1.steps _ _ ds1 0 hinv1.run_ok,
            runDecodingSteps_cons]
          have hv : ds1.values[vi]? = some v := hinv1.value_memo v vi hmemo1
          rw [show decodeStep reg s1.codecs ds1 (DecodingStep.literalNode vi)
              = Except.ok ⟨ds1.values, ds1.exprs ++ [ExprNode.literal v]⟩ from by
            simp only [decodeStep]
            rw [getOrErr_ok _ _ _ _ hv, except_bind_ok]]
          rfl
        · show (ds1.exprs ++ [ExprNode.literal v]).length = s1.numExprs + 1
          rw [List.length_append, hinv1.exprs_len]
          rfl
        · intro e i he
          rcases List.mem_append.mp he with he | he
          · have h2 := hinv1.expr_memo e i he
            show (ds1.exprs ++ [ExprNode.literal v])[i]? = some e
            rw [List.getElem?_append_left ((List.getElem?_eq_some.mp h2).1)]
            exact h2
          · rcases List.mem_singleton.mp he with h
            injection h with h1 h2
            subst h1 h2
            show (ds1.exprs ++ [ExprNode.literal v])[s1.numExprs]? = _
            rw [← hinv1.exprs_len]
            simp
      · simp
      · intro p hp
        exact hvmono1 p hp
      · intro p hp
        exact List.mem_append.mpr (Or.inl (hemono1 p hp))
  | ExprNode.leaf key, s, ds, hinv, hcompat => by
    cases hfind : exprMemoFind s.exprMemo (ExprNode.leaf key) with
    | some i =>
      refine ⟨i, s, ds, ?_, hinv, exprMemoFind_mem _ _ _ hfind,
        fun p hp => hp, fun p hp => hp⟩
      simp only [encodeExpr]
      rw [hfind]
    | none =>
      refine ⟨s.numExprs,
        ⟨s.codecs, s.steps ++ [DecodingStep.leafNode key], s.valueMemo,
         s.exprMemo ++ [(ExprNode.leaf key, s.numExprs)],
         s.numValues, s.numExprs + 1⟩,
        ⟨ds.values, ds.exprs ++ [ExprNode.leaf key]⟩, ?_, ?_, ?_, ?_, ?_⟩
      · simp only [encodeExpr]
        rw [hfind]
      · refine ⟨?_, hinv.codecs_reg, hinv.values_len, ?_, hinv.value_memo, ?_⟩
        · show runDecodingSteps reg s.codecs ⟨[], []⟩ 0
              (s.steps ++ [DecodingStep.leafNode key])
            = Except.ok ⟨ds.values, ds.exprs ++ [ExprNode.leaf key]⟩
          rw [runDecodingSteps_append reg s.codecs s.steps _ _ ds 0 hinv.run_ok,
            runDecodingSteps_cons]
          rfl
        · show (ds.exprs ++ [ExprNode.leaf key]).length = s.numExprs + 1
          rw [List.length_append, hinv.exprs_len]
          rfl
        · intro e i he
          rcases List.mem_append.mp he with he | he
          · have h2 := hinv.expr_memo e i he
            show (ds.exprs ++ [ExprNode.leaf key])[i]? = some e
            rw [List.getElem?_append_left ((List.getElem?_eq_some.mp h2).1)]
            exact h2
          · rcases List.mem_singleton.mp he with h
            injection h with h1 h2
            subst h1 h2
            show (ds.exprs ++ [ExprNode.leaf key])[s.numExprs]? = _
            rw [← hinv.exprs_len]
            simp
      · simp
      · intro p hp
        exact hp
      · intro p hp
        exact List.mem_append.mpr (Or.inl hp)
  | ExprNode.placeholder key, s, ds, hinv, hcompat => by
    cases hfind : exprMemoFind s.exprMemo (ExprNode.placeholder key) with
    | some i =>
      refine ⟨i, s, ds, ?_, hinv, exprMemoFind_mem _ _ _ hfind,
        fun p hp => hp, fun p hp => hp⟩
      simp only [encodeExpr]
      rw [hfind]
    | none =>
      refine ⟨s.numExprs,
        ⟨s.codecs, s.steps ++ [DecodingStep.placeholderNode key], s.valueMemo,
         s.exprMemo ++ [(ExprNode.placeholder key, s.numExprs)],
         s.numValues, s.numExprs + 1⟩,
        ⟨ds.values, ds.exprs ++ [ExprNode.placeholder key]⟩, ?_, ?_, ?_, ?_, ?_⟩
      · simp only [encodeExpr]
        rw [hfind]
      · refine ⟨?_, hinv.codecs_reg, hinv.values_len, ?_, hinv.value_memo, ?_⟩
        · show runDecodingSteps reg s.codecs ⟨[], []⟩ 0
              (s.steps ++ [DecodingStep.placeholderNode key])
            = Except.ok ⟨ds.values, ds.exprs ++ [ExprNode.placeholder key]⟩
          rw [runDecodingSteps_append reg s.codecs s.steps _ _ ds 0 hinv.run_ok,
            runDecodingSteps_cons]
          rfl
        · show (ds.exprs ++ [ExprNode.placeholder key]).length = s.numExprs + 1
          rw [List.length_append, hinv.exprs_len]
          rfl
        · intro e i he
          rcases List.mem_append.mp he with he | he
          · have h2 := hinv.expr_memo e i he
            show (ds.exprs ++ [ExprNode.placeholder key])[i]? = some e
            rw [List.getElem?_append_left ((List.getElem?_eq_some.mp h2).1)]
            exact h2
          · rcases List.mem_singleton.mp he with h
            injection h with h1 h2
            subst h1 h2
            show (ds.exprs ++ [ExprNode.placeholder key])[s.numExprs]? = _
            rw [← hinv.exprs_len]
            simp
      · simp
      · intro p hp
        exact hp
      · intro p hp
        exact List.mem_append.mpr (Or.inl hp)
  | ExprNode.operation op args, s, ds, hinv, hcompat => by
    cases hfind : exprMemoFind s.exprMemo (ExprNode.operation op args) with
    | some i =>
      refine ⟨i, s, ds, ?_, hinv, exprMemoFind_mem _ _ _ hfind,
        fun p hp => hp, fun p hp => hp⟩
      simp only [encodeExpr]
      rw [hfind]
    | none =>
      have hcop : CodecCompat encV reg op := hcompat op (by simp [exprValues])
      obtain ⟨ovi, s1, ds1, henc1, hinv1, hmemo1, hvmono1, hemono1⟩ :=
        encodeValue_ok encV reg op s ds hinv hcop
      have hcargs : ∀ v ∈ exprListValues args, CodecCompat encV reg v := by
        intro v hv
        apply hcompat v
        simp only [exprValues, List.mem_cons]
        exact Or.inr hv
      obtain ⟨argIdxs, s2, ds2, henc2, hinv2, hfa2, hvmono2, hemono2⟩ :=
        encodeExprList_ok encV reg args s1 ds1 hinv1 hcargs
      refine ⟨s2.numExprs,
        ⟨s2.codecs, s2.steps ++ [DecodingStep.operationNode ovi argIdxs], s2.valueMemo,
         s2.exprMemo ++ [(ExprNode.operation op args, s2.numExprs)],
         s2.numValues, s2.numExprs + 1⟩,
        ⟨ds2.values, ds2.exprs ++ [ExprNode.operation op args]⟩, ?_, ?_, ?_, ?_, ?_⟩
      · simp only [encodeExpr, hfind, henc1, henc2]
      · refine ⟨?_, hinv2.codecs_reg, hinv2.values_len, ?_, hinv2.value_memo, ?_⟩
        · show runDecodingSteps reg s2.codecs ⟨[], []⟩ 0
              (s2.steps ++ [DecodingStep.operationNode ovi argIdxs])
            = Except.ok ⟨ds2.values, ds2.exprs ++ [ExprNode.operation op args]⟩
          rw [runDecodingSteps_append reg s2.codecs s2.steps _ _ ds2 0 hinv2.run_ok,
            runDecodingSteps_cons]
          have hop : ds2.values[ovi]? = some op :=
            hinv2.value_memo op ovi (hvmono2 (op, ovi) hmemo1)
          have hargs : argIdxs.mapM (fun i => getOrErr ds2.exprs i ("expression"))
              = Except.ok args :=
            mapM_getOrErr_forall2 ds2.exprs _ argIdxs args
              (List.Forall₂.imp (fun e i h => hinv2.expr_memo e i h) hfa2)
          rw [show decodeStep reg s2.codecs ds2 (DecodingStep.operationNode ovi argIdxs)
              = Except.ok ⟨ds2.values, ds2.exprs ++ [ExprNode.operation op args]⟩ from by
            simp only [decodeStep]
            rw [getOrErr_ok _ _ _ _ hop, except_bind_ok, hargs, except_bind_ok]]
          rfl
        · show (ds2.exprs ++ [ExprNode.operation op args]).length = s2.numExprs + 1
          rw [List.length_append, hinv2.exprs_len]
          rfl
        · intro e i he
          rcases List.mem_append.mp he with he | he
          · have h2 := hinv2.expr_memo e i he
            show (ds2.exprs ++ [ExprNode.operation op args])[i]? = some e
            rw [List.getElem?_append_left ((List.getElem?_eq_some.mp h2).1)]
            exact h2
          · rcases List.mem_singleton.mp he with h
            injection h with h1 h2
            subst h1 h2
            show (ds2.exprs ++ [ExprNode.operation op args])[s2.numExprs]? = _
            rw [← hinv2.exprs_len]
            simp
      · simp
      · intro p hp
        exact hvmono2 p (hvmono1 p hp)
      · intro p hp
        exact List.mem_append.mpr (Or.inl (hemono2 p (hemono1 p hp)))

theorem encodeExprList_ok {V P : Type} [DecidableEq V] (encV : ValueEncoder V P)
    (reg : CodecRegistry V P) :
    ∀ (es : List (ExprNode V)) (s : EncState V P) (ds : DecState V),
      EncInv reg s ds →
      (∀ v ∈ exprListValues es, CodecCompat encV reg v) →
      ∃ idxs s2 ds2, encodeExprList encV es s = Except.ok (idxs, s2) ∧
        EncInv reg s2 ds2 ∧
        List.Forall₂ (fun e i => (e, i) ∈ s2.exprMemo) es idxs ∧
        (∀ p ∈ s.valueMemo, p ∈ s2.valueMemo) ∧
        (∀ p ∈ s.exprMemo, p ∈ s2.exprMemo)
  | [], s, ds, hinv, _ =>
    ⟨[], s, ds, rfl, hinv, List.Forall₂.nil, fun p hp => hp, fun p hp => hp⟩
  | e :: rest, s, ds, hinv, hcompat => by
    obtain ⟨i, s1, ds1, henc1, hinv1, hmemo1, hvmono1, hemono1⟩ :=
      encodeExpr_ok encV reg e s ds hinv (by
        intro v hv
        apply hcompat v
        simp only [exprListValues, List.mem_append]
        exact Or.inl hv)
    obtain ⟨idxs, s2, ds2, henc2, hinv2, hfa2, hvmono2, hemono2⟩ :=
      encodeExprList_ok encV reg rest s1 ds1 hinv1 (by
        intro v hv
        apply hcompat v
        simp only [exprListValues, List.mem_append]
        exact Or.inr hv)
    refine ⟨i :: idxs, s2, ds2, ?_, hinv2, ?_, ?_, ?_⟩
    · simp only [encodeExprList, henc1, henc2]
    · exact List.Forall₂.cons (hemono2 (e, i) hmemo1) hfa2
    · intro p hp
      exact hvmono2 p (hvmono1 p hp)
    · intro p hp
      exact hemono2 p (hemono1 p hp)
end

theorem encodeValues_ok {V P : Type} [DecidableEq V] (encV : ValueEncoder V P)
    (reg : CodecRegistry V P) :
    ∀ (vs : List V) (s : EncState V P) (ds : DecState V),
      EncInv reg s ds →
      (∀ v ∈ vs, CodecCompat encV reg v) →
      ∃ idxs s2 ds2, encodeValues encV vs s = Except.ok (idxs, s2) ∧
        EncInv reg s2 ds2 ∧
        List.Forall₂ (fun v i => (v, i) ∈ s2.valueMemo) vs idxs ∧
        (∀ p ∈ s.valueMemo, p ∈ s2.valueMemo) ∧
        (∀ p ∈ s.exprMemo, p ∈ s2.exprMemo) := by
  intro vs
  induction vs with
  | nil =>
    intro s ds hinv _
    exact ⟨[], s, ds, rfl, hinv, List.Forall₂.nil, fun p hp => hp, fun p hp => hp⟩
  | cons v rest ih =>
    intro s ds hinv hc
    obtain ⟨i, s1, ds1, h1, hinv1, hm1, hv1, he1⟩ :=
      encodeValue_ok encV reg v s ds hinv (hc v (List.mem_cons_self _ _))
    obtain ⟨idxs, s2, ds2, h2, hinv2, hfa, hv2, he2⟩ :=
      ih s1 ds1 hinv1 (fun w hw => hc w (List.mem_cons_of_mem _ hw))
    refine ⟨i :: idxs, s2, ds2, ?_, hinv2,
      List.Forall₂.cons (hv2 (v, i) hm1) hfa,
      fun p hp => hv2 p (hv1 p hp), fun p hp => he2 p (he1 p hp)⟩
    simp only [encodeValues, h1, h2]

theorem encInv_empty {V P : Type} (reg : CodecRegistry V P) :
    EncInv reg (emptyEncState : EncState V P) ⟨[], []⟩ :=
  ⟨rfl, by simp [emptyEncState], rfl, rfl, by simp [emptyEncState],
   by simp [emptyEncState]⟩

theorem mem_exprListValues {V : Type} :
    ∀ (es : List (ExprNode V)) (v : V),
      v ∈ exprListValues es ↔ ∃ e ∈ es, v ∈ exprValues e
  | [], v => by simp [exprListValues]
  | e :: rest, v => by
    simp only [exprListValues, List.mem_append, mem_exprListValues rest v,
      List.mem_cons]
    constructor
    · rintro (h | ⟨e2, h2, h3⟩)
      · exact ⟨e, Or.inl rfl, h⟩
      · exact ⟨e2, Or.inr h2, h3⟩
    · rintro ⟨e2, rfl | h2, h3⟩
      · exact Or.inl h3
      · exact Or.inr ⟨e2, h2, h3⟩

/-! ### Claim C1 -/

/-- C1: for every value or expression graph (root values and root
expression trees; trees cannot dangle by construction) whose values the
codec tables invert (`CodecCompat`), decoding the container produced by
encoding the graph succeeds and yields results equal — fingerprint
equality for values, structural equality for expressions, both modelled
by equality — to the originals: one result per requested root, in the
requested order. -/
theorem serialization_round_trip {V P : Type} [DecidableEq V]
    (encV : ValueEncoder V P) (reg : CodecRegistry V P)
    (rootValues : List V) (rootExprs : List (ExprNode V))
    (hcompat : ∀ v, (v ∈ rootValues ∨ ∃ e ∈ rootExprs, v ∈ exprValues e) →
      CodecCompat encV reg v) :
    ∃ c : Container P, encode encV rootValues rootExprs = Except.ok c ∧
      decodeContainer reg c = Except.ok ⟨rootValues, rootExprs⟩ := by
  obtain ⟨vIdxs, s1, ds1, h1, hinv1, hfaV, _, _⟩ :=
    encodeValues_ok encV reg rootValues emptyEncState ⟨[], []⟩ (encInv_empty reg)
      (fun v hv => hcompat v (Or.inl hv))
  obtain ⟨eIdxs, s2, ds2, h2, hinv2, hfaE, hvmono, hemono⟩ :=
    encodeExprList_ok encV reg rootExprs s1 ds1 hinv1 (fun v hv =>
      hcompat v (Or.inr ((mem_exprListValues rootExprs v).mp hv)))
  refine ⟨⟨1, s2.codecs, s2.steps, vIdxs, eIdxs⟩, ?_, ?_⟩
  · simp only [encode, h1, h2]
  · have hfind : s2.codecs.find? (fun name => (reg name).isNone) = none := by
      rw [List.find?_eq_none]
      intro name hname
      have h3 := hinv2.codecs_reg name hname
      simp only [Bool.not_eq_true, Option.isNone_eq_false_iff]
      exact h3
    have hov : vIdxs.mapM (fun i => getOrErr ds2.values i ("value"))
        = Except.ok rootValues :=
      mapM_getOrErr_forall2 ds2.values _ vIdxs rootValues
        (List.Forall₂.imp (fun v i h => hinv2.value_memo v i (hvmono (v, i) h)) hfaV)
    have hoe : eIdxs.mapM (fun i => getOrErr ds2.exprs i ("expression"))
        = Except.ok rootExprs :=
      mapM_getOrErr_forall2 ds2.exprs _ eIdxs rootExprs
        (List.Forall₂.imp (fun e i h => hinv2.expr_memo e i h) hfaE)
    simp only [decodeContainer, hfind, hinv2.run_ok, hov, hoe]
    rw [if_neg (by simp)]

/-- Witness for C1: a concrete graph — three root values with a repeated
entry and a root expression applying an operator value to a leaf —
round-trips through a one-codec registry. -/
theorem serialization_round_trip_witness :
    ∃ c : Container Nat,
      encode (fun v : Nat => some ("c", v)) [42, 42, 7]
          [ExprNode.operation 5 [ExprNode.leaf ("p")]] = Except.ok c ∧
      decodeContainer
          (fun name => if name = "c" then
            some (fun p _ _ => Except.ok p) else none) c
        = Except.ok ⟨[42, 42, 7], [ExprNode.operation 5 [ExprNode.leaf ("p")]]⟩ :=
  serialization_round_trip (fun v : Nat => some ("c", v))
    (fun name => if name = "c" then some (fun p _ _ => Except.ok p) else none)
    [42, 42, 7] [ExprNode.operation 5 [ExprNode.leaf ("p")]]
    (fun v _ => ⟨"c", v, fun p _ _ => Except.ok p, rfl, rfl, rfl⟩)

end ArollaSpec
